import Mathlib

/-
Verification of the rnetv packet-scheduling engine.

The Rust sources are shallowly embedded as Lean functions:

* `DRRSim` models src/packet.rs, src/flow.rs and
  src/scheduling/schedulers/drr.rs (the `Packet`/`Flow`/`OutputLink`/
  `DRRScheduler` world);
* `Sched` models src/scheduling/mod.rs, src/scheduling/flow.rs,
  src/scheduling/schedulers/wrr.rs and src/scheduling/schedulers/wfq.rs
  (the `Packet`/`Port`/`VariableLengthFlow`/`FixedLengthFlow`/
  `WRRScheduler`/`WFQScheduler` world).

Machine integers (`usize`) are modeled as `Nat` (no arithmetic here can
overflow in the source's own fixtures), `f64` weights as `ℚ`, the static
string names of the scheduling-world packets as `Nat`, and the unseeded
`rand::random::<bool>()` draws of the WFQ tie-break as an explicit stream
`Nat → Bool` together with the index of the next draw.  `Vec::sort_by`
(a stable sort) is modeled by the stable insertion sort `sortByKey`.
Loops with mutable state are expressed as structural recursions that walk
the parallel vectors in the same order as the source loops; `run` loops
take explicit fuel, `none`/`fuelOut` meaning the loop was still going.
-/

set_option maxRecDepth 20000

universe u

variable {α : Type u}

/-- Stable insertion of `a` into `l` by a natural-number key: `a` is placed
before the first element whose key is strictly greater than `key a`. -/
def insertByKey (key : α → Nat) (a : α) : List α → List α
  | [] => [a]
  | b :: l => if key a ≤ key b then a :: b :: l else b :: insertByKey key a l

/-- Stable insertion sort by a natural-number key; the model of Rust's stable
`Vec::sort_by` with an `a.cmp(&b)` comparison of the keys. -/
def sortByKey (key : α → Nat) : List α → List α
  | [] => []
  | a :: l => insertByKey key a (sortByKey key l)

namespace DRRSim

/-- Rust `Packet` of src/packet.rs: index, length, arrival time. -/
structure Packet where
  index : Nat
  len : Nat
  arrival_time : Nat
deriving DecidableEq, Inhabited, Repr

/-- Rust `Flow` of src/flow.rs: a vector of packets. -/
structure Flow where
  packets : List Packet
deriving DecidableEq, Inhabited, Repr

/-- Rust `Flow::new`. -/
def Flow.new : Flow := ⟨[]⟩

/-- Rust `Flow::add_packet`: push, then stable sort by arrival time. -/
def Flow.add_packet (f : Flow) (p : Packet) : Flow :=
  ⟨sortByKey (fun q => q.arrival_time) (f.packets ++ [p])⟩

/-- Rust `Flow::peek_packet`: the head packet when it has arrived by `time`. -/
def Flow.peek_packet (f : Flow) (time : Nat) : Option Packet :=
  match f.packets.head? with
  | some p => if p.arrival_time ≤ time then some p else none
  | none => none

/-- Rust `Flow::empty`. -/
def Flow.empty (f : Flow) : Bool := f.packets.isEmpty

/-- Rust `OutputLink` of src/scheduling/schedulers/drr.rs. -/
structure OutputLink where
  capacity : Nat
  current_load : Nat
  history : List (Nat × Nat)
deriving DecidableEq, Inhabited, Repr

/-- Rust `OutputLink::add`: the load grows by the packet length and the pair
`(flow, packet index)` is appended to the history. -/
def OutputLink.add (l : OutputLink) (flow : Nat) (p : Packet) : OutputLink :=
  { l with current_load := l.current_load + p.len,
           history := l.history ++ [(flow, p.index)] }

/-- Rust `OutputLink::tick`: `capacity` is subtracted from the load, but only
when `current_load >= capacity` (a load below the capacity is left as is). -/
def OutputLink.tick (l : OutputLink) : OutputLink :=
  if l.capacity ≤ l.current_load then
    { l with current_load := l.current_load - l.capacity }
  else l

/-- Rust `OutputLink::empty`. -/
def OutputLink.empty (l : OutputLink) : Bool := l.current_load == 0

/-- Rust `DRRScheduler` of src/scheduling/schedulers/drr.rs. -/
structure DRRScheduler where
  timer : Nat
  flows : List Flow
  weights : List Nat
  deficit_counters : List Nat
  output_link : OutputLink
deriving DecidableEq, Inhabited, Repr

/-- Rust `DRRScheduler::new`. -/
def DRRScheduler.new (capacity : Nat) : DRRScheduler :=
  ⟨0, [], [], [], ⟨capacity, 0, []⟩⟩

/-- Rust `DRRScheduler::add_flow`: the new deficit counter starts at the
flow's weight. -/
def DRRScheduler.add_flow (s : DRRScheduler) (f : Flow) (w : Nat) : DRRScheduler :=
  { s with flows := s.flows ++ [f],
           weights := s.weights ++ [w],
           deficit_counters := s.deficit_counters ++ [w] }

/-- Registering a list of flow/weight pairs one by one with
`DRRScheduler::add_flow`. -/
def DRRScheduler.addAll (s : DRRScheduler) : List (Flow × Nat) → DRRScheduler
  | [] => s
  | e :: rest => (s.add_flow e.1 e.2).addAll rest

/-- A DRR scheduler freshly built from a capacity and a list of flow/weight
pairs, exactly as the callers of the Rust API do. -/
def mkDRR (capacity : Nat) (l : List (Flow × Nat)) : DRRScheduler :=
  (DRRScheduler.new capacity).addAll l

/-- One iteration of the `for i in 0..self.flows.len()` loop body of Rust
`DRRScheduler::schedule`, acting on flow number `i` with deficit counter `d`:
an eligible head packet within the deficit is paid for, admitted and popped;
a flow with no eligible packet has its deficit counter reset to 0. -/
def drrFlowStep (timer : Nat) (link : OutputLink) (i : Nat) (f : Flow) (d : Nat) :
    OutputLink × Flow × Nat :=
  match f.peek_packet timer with
  | some p =>
      if p.len ≤ d then (link.add i p, ⟨f.packets.tail⟩, d - p.len)
      else (link, f, d)
  | none => (link, f, 0)

/-- The loop of Rust `DRRScheduler::schedule`, walking the flows and their
deficit counters in registration order starting at absolute index `i`. -/
def drrScheduleGo (timer : Nat) (link : OutputLink) (i : Nat) :
    List Flow → List Nat → OutputLink × List Flow × List Nat
  | [], ds => (link, [], ds)
  | f :: fs, [] => (link, f :: fs, [])
  | f :: fs, d :: ds =>
      match drrFlowStep timer link i f d with
      | (link2, f2, d2) =>
        match drrScheduleGo timer link2 (i + 1) fs ds with
        | (link3, fs3, ds3) => (link3, f2 :: fs3, d2 :: ds3)

/-- Rust `DRRScheduler::schedule`: with a busy link the round is skipped and
`false` returned; otherwise one full sweep over the flows runs. -/
def DRRScheduler.schedule (s : DRRScheduler) : Bool × DRRScheduler :=
  if ¬ s.output_link.empty then (false, s)
  else
    match drrScheduleGo s.timer s.output_link 0 s.flows s.deficit_counters with
    | (link2, flows2, ds2) =>
      (true, { s with output_link := link2, flows := flows2, deficit_counters := ds2 })

/-- Rust `DRRScheduler::tick`: stop when every flow is drained; otherwise
advance the timer, tick the link, and when the link is idle run one
scheduling round, replenishing every deficit counter by its weight when the
round ran. -/
def DRRScheduler.tick (s : DRRScheduler) : Bool × DRRScheduler :=
  if s.flows.all (fun f => f.empty) then (false, s)
  else
    let s2 := { s with timer := s.timer + 1, output_link := s.output_link.tick }
    if ¬ s2.output_link.empty then (true, s2)
    else
      match s2.schedule with
      | (b, s3) =>
        if b then
          (true, { s3 with deficit_counters :=
                     List.zipWith (fun d w => d + w) s3.deficit_counters s3.weights })
        else (true, s3)

/-- Rust `DRRScheduler::run` (`while self.tick() {}`) with explicit fuel;
`none` means the loop had not finished within `fuel` ticks. -/
def DRRScheduler.run : Nat → DRRScheduler → Option DRRScheduler
  | 0, _ => none
  | fuel + 1, s =>
      match s.tick with
      | (true, s2) => DRRScheduler.run fuel s2
      | (false, s2) => some s2

/-- Departure indices recorded for flow `i` in an `OutputLink` history, in
order. -/
def histFor (i : Nat) (h : List (Nat × Nat)) : List Nat :=
  h.filterMap (fun e => if e.1 = i then some e.2 else none)

/-- The packet indices of a flow's queue, in queue order. -/
def indicesOf (f : Flow) : List Nat := f.packets.map (fun p => p.index)

/-- Conservation invariant of a DRR scheduler relative to the initially
registered queues: for every flow, the recorded departures followed by the
packets still queued are exactly the initial queue, and the three parallel
vectors keep their length. -/
def DRRInv (init : List Flow) (s : DRRScheduler) : Prop :=
  s.flows.length = init.length ∧
  s.weights.length = init.length ∧
  s.deficit_counters.length = init.length ∧
  ∀ k, k < init.length →
    histFor k s.output_link.history ++ indicesOf (s.flows.getD k ⟨[]⟩)
      = indicesOf (init.getD k ⟨[]⟩)

end DRRSim

namespace Sched

/-- Rust `Packet` of src/scheduling/mod.rs (its static string name is modeled
by a natural number). -/
structure Packet where
  name : Nat
  len : Nat
deriving DecidableEq, Inhabited, Repr

/-- Rust `Port` of src/scheduling/mod.rs. -/
structure Port where
  id : Nat
  rate : Nat
  in_queue : List Packet
  out_queue : List Packet
  current_processed : Nat
deriving DecidableEq, Inhabited, Repr

/-- Rust `Port::new`. -/
def Port.new (id rate : Nat) : Port := ⟨id, rate, [], [], 0⟩

/-- Rust `Port::empty`. -/
def Port.empty (p : Port) : Bool := p.in_queue.isEmpty

/-- Rust `Port::submit`: push onto the in queue (no occupancy check). -/
def Port.submit (port : Port) (packet : Packet) : Port :=
  { port with in_queue := port.in_queue ++ [packet] }

/-- Rust `Port::tick`: accumulate `rate` service units towards the head
packet of the in queue; once covered, the packet moves to the out queue. -/
def Port.tick (port : Port) : Port :=
  match port.in_queue with
  | packet :: rest =>
      let cp := port.current_processed + port.rate
      if packet.len ≤ cp then
        { port with current_processed := 0, in_queue := rest,
                    out_queue := port.out_queue ++ [packet] }
      else { port with current_processed := cp }
  | [] => port

/-- Rust `Port::proceed_rest`: flush the whole in queue to the out queue. -/
def Port.proceed_rest (port : Port) : Port :=
  { port with in_queue := [], out_queue := port.out_queue ++ port.in_queue,
              current_processed := 0 }

/-- Rust `VariableLengthFlow` of src/scheduling/flow.rs. -/
structure VariableLengthFlow where
  packet_states : List (Packet × Nat)
deriving DecidableEq, Inhabited, Repr

/-- Rust `VariableLengthFlow::new`. -/
def VariableLengthFlow.new : VariableLengthFlow := ⟨[]⟩

/-- Rust `VariableLengthFlow::packet_arrive`: push the pair, then stable sort
by arrival time. -/
def VariableLengthFlow.packet_arrive (f : VariableLengthFlow) (p : Packet) (time : Nat) :
    VariableLengthFlow :=
  ⟨sortByKey (fun a => a.2) (f.packet_states ++ [(p, time)])⟩

/-- Rust `VariableLengthFlow::peek_packet`. -/
def VariableLengthFlow.peek_packet (f : VariableLengthFlow) (time : Nat) : Option Packet :=
  match f.packet_states.head? with
  | some (packet, arrive_time) => if arrive_time ≤ time then some packet else none
  | none => none

/-- Rust `VariableLengthFlow::empty`. -/
def VariableLengthFlow.empty (f : VariableLengthFlow) : Bool := f.packet_states.isEmpty

/-- The packets of a variable-length flow's queue, in queue order. -/
def VariableLengthFlow.queue (f : VariableLengthFlow) : List Packet :=
  f.packet_states.map (fun a => a.1)

/-- Rust `FixedLengthFlow` of src/scheduling/flow.rs. -/
structure FixedLengthFlow where
  packet_len : Nat
  packet_states : List (Packet × Nat)
deriving DecidableEq, Inhabited, Repr

/-- Rust `FixedLengthFlow::new`. -/
def FixedLengthFlow.new (packet_len : Nat) : FixedLengthFlow := ⟨packet_len, []⟩

/-- Rust `FixedLengthFlow::add_packet`: the packet is created with the flow's
fixed length, pushed, and the queue stably re-sorted by arrival time. -/
def FixedLengthFlow.add_packet (f : FixedLengthFlow) (name arrive_time : Nat) :
    FixedLengthFlow :=
  { f with packet_states :=
      sortByKey (fun a => a.2) (f.packet_states ++ [(⟨name, f.packet_len⟩, arrive_time)]) }

/-- Rust `FixedLengthFlow::peek_packet`. -/
def FixedLengthFlow.peek_packet (f : FixedLengthFlow) (time : Nat) : Option Packet :=
  match f.packet_states.head? with
  | some (packet, arrive_time) => if arrive_time ≤ time then some packet else none
  | none => none

/-- Rust `FixedLengthFlow::empty`. -/
def FixedLengthFlow.empty (f : FixedLengthFlow) : Bool := f.packet_states.isEmpty

/-- The packets of a fixed-length flow's queue, in queue order. -/
def FixedLengthFlow.queue (f : FixedLengthFlow) : List Packet :=
  f.packet_states.map (fun a => a.1)

/-- Rust `WRRScheduler` of src/scheduling/schedulers/wrr.rs. -/
structure WRRScheduler where
  timer : Nat
  weights : List Nat
  current_weight : List Nat
  flows : List FixedLengthFlow
  output_port : Port
deriving DecidableEq, Inhabited, Repr

/-- Rust `WRRScheduler::new`. -/
def WRRScheduler.new (bandwidth : Nat) : WRRScheduler :=
  ⟨0, [], [], [], Port.new 0 bandwidth⟩

/-- Rust `WRRScheduler::add_flow`. -/
def WRRScheduler.add_flow (s : WRRScheduler) (f : FixedLengthFlow) (w : Nat) : WRRScheduler :=
  { s with flows := s.flows ++ [f], weights := s.weights ++ [w],
           current_weight := s.current_weight ++ [w] }

/-- Registering a list of flow/weight pairs one by one with
`WRRScheduler::add_flow`. -/
def WRRScheduler.addAll (s : WRRScheduler) : List (FixedLengthFlow × Nat) → WRRScheduler
  | [] => s
  | e :: rest => (s.add_flow e.1 e.2).addAll rest

/-- A WRR scheduler freshly built from a bandwidth and a list of flow/weight
pairs. -/
def mkWRR (bandwidth : Nat) (l : List (FixedLengthFlow × Nat)) : WRRScheduler :=
  (WRRScheduler.new bandwidth).addAll l

/-- The scan loop of Rust `WRRScheduler::schedule`, walking the flows and
their remaining quanta in registration order: empty or quota-exhausted flows
are passed over; at the first non-empty flow with a positive quantum the scan
ends (`false`), serving that flow's head packet only when it is eligible; the
scan returns `true` when it passes over every flow. -/
def wrrScheduleGo (timer : Nat) (port : Port) :
    List FixedLengthFlow → List Nat → Bool × Port × List FixedLengthFlow × List Nat
  | [], cs => (true, port, [], cs)
  | f :: fs, [] => (true, port, f :: fs, [])
  | f :: fs, c :: cs =>
      if f.empty then
        match wrrScheduleGo timer port fs cs with
        | (b, p2, fs2, cs2) => (b, p2, f :: fs2, c :: cs2)
      else if 0 < c then
        (match f.peek_packet timer with
         | some _ =>
             match f.packet_states with
             | (packet, _) :: rest =>
                 (false, port.submit packet,
                  { f with packet_states := rest } :: fs, (c - 1) :: cs)
             | [] => (false, port, f :: fs, c :: cs)
         | none => (false, port, f :: fs, c :: cs))
      else
        match wrrScheduleGo timer port fs cs with
        | (b, p2, fs2, cs2) => (b, p2, f :: fs2, c :: cs2)

/-- Rust `WRRScheduler::schedule`. -/
def WRRScheduler.schedule (s : WRRScheduler) :
    Bool × Port × List FixedLengthFlow × List Nat :=
  wrrScheduleGo s.timer s.output_port s.flows s.current_weight

/-- The index of the first flow that is non-empty and has a positive
remaining quantum: the flow at which the scan of `WRRScheduler::schedule`
stops. -/
def firstServableIdx : List FixedLengthFlow → List Nat → Option Nat
  | f :: fs, c :: cs =>
      if f.empty = false ∧ 0 < c then some 0
      else (firstServableIdx fs cs).map (fun k => k + 1)
  | _, _ => none

/-- Outcome of one Rust `WRRScheduler::tick`: keep going, stop, or the
defensive fatal abort on a stuck loop. -/
inductive WrrStep where
  | stop (s : WRRScheduler)
  | next (s : WRRScheduler)
  | panicked (s : WRRScheduler)
deriving DecidableEq, Inhabited, Repr

/-- Whether a `WrrStep` is the fatal abort. -/
def WrrStep.isPanicked : WrrStep → Bool
  | .panicked _ => true
  | _ => false

/-- Rust `WRRScheduler::tick`: stop when every flow is drained; otherwise
scan, resetting every quantum to its weight when the scan passed over every
flow, then advance the timer and tick the port; the tick aborts fatally when
the timer passes 100. -/
def WRRScheduler.tick (s : WRRScheduler) : WrrStep :=
  if s.flows.all (fun f => f.empty) then .stop s
  else
    match s.schedule with
    | (b, port2, flows2, cw2) =>
      let cw3 := if b then s.weights else cw2
      let s2 : WRRScheduler := ⟨s.timer + 1, s.weights, cw3, flows2, port2.tick⟩
      if 100 < s2.timer then .panicked s2 else .next s2

/-- Outcome of Rust `WRRScheduler::run` under explicit fuel. -/
inductive WrrRun where
  | finished (s : WRRScheduler)
  | panicked (s : WRRScheduler)
  | fuelOut
deriving DecidableEq, Inhabited, Repr

/-- Rust `WRRScheduler::run`: tick until the stop, then flush the port with
`proceed_rest`. -/
def WRRScheduler.run : Nat → WRRScheduler → WrrRun
  | 0, _ => .fuelOut
  | fuel + 1, s =>
      match s.tick with
      | .stop s2 => .finished { s2 with output_port := s2.output_port.proceed_rest }
      | .next s2 => WRRScheduler.run fuel s2
      | .panicked s2 => .panicked s2

/-- Rust `WFQScheduler` of src/scheduling/schedulers/wfq.rs (the `f64`
weights are modeled as rationals). -/
structure WFQScheduler where
  timer : Nat
  weights : List ℚ
  total_weight : ℚ
  flows : List VariableLengthFlow
  output_port : Port
deriving DecidableEq, Inhabited, Repr

/-- Rust `WFQScheduler::new`. -/
def WFQScheduler.new (bandwidth : Nat) : WFQScheduler :=
  ⟨0, [], 0, [], Port.new 0 bandwidth⟩

/-- Rust `WFQScheduler::add_flow`. -/
def WFQScheduler.add_flow (s : WFQScheduler) (f : VariableLengthFlow) (w : ℚ) :
    WFQScheduler :=
  { s with flows := s.flows ++ [f], weights := s.weights ++ [w],
           total_weight := s.total_weight + w }

/-- Registering a list of flow/weight pairs one by one with
`WFQScheduler::add_flow`. -/
def WFQScheduler.addAll (s : WFQScheduler) : List (VariableLengthFlow × ℚ) → WFQScheduler
  | [] => s
  | e :: rest => (s.add_flow e.1 e.2).addAll rest

/-- A WFQ scheduler freshly built from a bandwidth and a list of flow/weight
pairs. -/
def mkWFQ (bandwidth : Nat) (l : List (VariableLengthFlow × ℚ)) : WFQScheduler :=
  (WFQScheduler.new bandwidth).addAll l

/-- Rust `WFQScheduler::estimate_time` (the source spells the parameter
`pakcet`). -/
def WFQScheduler.estimate_time (s : WFQScheduler) (flow_idx : Nat) (pakcet : Packet) : ℚ :=
  let assumed_rate := s.weights.getD flow_idx 0 / s.total_weight
  (pakcet.len : ℚ) / assumed_rate

/-- The loop of Rust `WFQScheduler::schedule` over the enumerated flows,
carrying the running minimum estimate (`none` models `f64::INFINITY`), the
index of the current winner, and the position in the stream of random
tie-break draws (`rand::random::<bool>()`). -/
def wfqScheduleGo (s : WFQScheduler) (coins : Nat → Bool) :
    List (Nat × VariableLengthFlow) → Option ℚ → Nat → Nat → Option ℚ × Nat × Nat
  | [], min_time, min_idx, cidx => (min_time, min_idx, cidx)
  | (idx, flow) :: rest, min_time, min_idx, cidx =>
      if flow.empty then wfqScheduleGo s coins rest min_time min_idx cidx
      else
        match flow.peek_packet s.timer with
        | some packet =>
            let time := s.estimate_time idx packet
            match min_time with
            | none => wfqScheduleGo s coins rest (some time) idx cidx
            | some mt =>
                if time < mt then wfqScheduleGo s coins rest (some time) idx cidx
                else if time = mt then
                  (if coins cidx then wfqScheduleGo s coins rest (some mt) idx (cidx + 1)
                   else wfqScheduleGo s coins rest (some mt) min_idx (cidx + 1))
                else wfqScheduleGo s coins rest min_time min_idx cidx
        | none => wfqScheduleGo s coins rest min_time min_idx cidx

/-- Rust `WFQScheduler::schedule`: the index of the eligible flow with the
least finish-time estimate, or `none`; ties consume random draws from
`coins` starting at position `cidx`. -/
def WFQScheduler.schedule (s : WFQScheduler) (coins : Nat → Bool) (cidx : Nat) :
    Option Nat × Nat :=
  match wfqScheduleGo s coins s.flows.enum none 0 cidx with
  | (none, _, cidx2) => (none, cidx2)
  | (some _, min_idx, cidx2) => (some min_idx, cidx2)

/-- Rust `WFQScheduler::tick`: pop and submit the winner's head packet when
there is one (no occupancy check on the port), then advance the timer and
tick the port. -/
def WFQScheduler.tick (s : WFQScheduler) (coins : Nat → Bool) (cidx : Nat) :
    Bool × WFQScheduler × Nat :=
  if s.flows.all (fun f => f.empty) then (false, s, cidx)
  else
    match s.schedule coins cidx with
    | (some idx, cidx2) =>
        (match (s.flows.getD idx ⟨[]⟩).packet_states with
         | (packet, _) :: rest =>
             let s2 : WFQScheduler :=
               { s with flows := s.flows.set idx ⟨rest⟩,
                        output_port := s.output_port.submit packet }
             (true, { s2 with timer := s2.timer + 1,
                              output_port := s2.output_port.tick }, cidx2)
         | [] =>
             (true, { s with timer := s.timer + 1,
                             output_port := s.output_port.tick }, cidx2))
    | (none, cidx2) =>
        (true, { s with timer := s.timer + 1,
                        output_port := s.output_port.tick }, cidx2)

/-- Rust `WFQScheduler::run`: tick until every flow drains, then flush the
port; the result also carries the number of random draws consumed. -/
def WFQScheduler.run :
    Nat → (Nat → Bool) → Nat → WFQScheduler → Option (WFQScheduler × Nat)
  | 0, _, _, _ => none
  | fuel + 1, coins, cidx, s =>
      match s.tick coins cidx with
      | (true, s2, cidx2) => WFQScheduler.run fuel coins cidx2 s2
      | (false, s2, cidx2) =>
          some ({ s2 with output_port := s2.output_port.proceed_rest }, cidx2)

/-- The names of a list of packets, in order. -/
def namesOf (q : List Packet) : List Nat := q.map (fun p => p.name)

/-- The sublist of `q` whose packet names belong to `names`: with globally
distinct names across flows, this reads one flow's packets out of a port
queue. -/
def ofNames (names : List Nat) (q : List Packet) : List Packet :=
  q.filter (fun p => names.contains p.name)

/-- Boolean check that the name lists are pairwise disjoint. -/
def namesDisjointB : List (List Nat) → Bool
  | [] => true
  | a :: rest =>
      (a.all (fun n => rest.all (fun b => !(b.contains n)))) && namesDisjointB rest

/-- Conservation invariant of a WRR scheduler relative to the initially
registered queues (given as lists of packets): for every flow, its packets
inside the port (out queue then in queue) followed by its remaining queue are
exactly the initial queue, and the parallel vectors keep their length. -/
def WRRInv (init : List (List Packet)) (s : WRRScheduler) : Prop :=
  s.flows.length = init.length ∧
  s.weights.length = init.length ∧
  s.current_weight.length = init.length ∧
  ∀ k, k < init.length →
    ofNames (namesOf (init.getD k [])) (s.output_port.out_queue ++ s.output_port.in_queue)
      ++ (s.flows.getD k ⟨0, []⟩).queue = init.getD k []

/-- Conservation invariant of a WFQ scheduler relative to the initially
registered queues. -/
def WFQInv (init : List (List Packet)) (s : WFQScheduler) : Prop :=
  s.flows.length = init.length ∧
  ∀ k, k < init.length →
    ofNames (namesOf (init.getD k [])) (s.output_port.out_queue ++ s.output_port.in_queue)
      ++ (s.flows.getD k ⟨[]⟩).queue = init.getD k []

end Sched

section Fixtures

/-- Coin stream that always answers `false`. -/
def coinsF : Nat → Bool := fun _ => false

/-- Coin stream that always answers `true`. -/
def coinsT : Nat → Bool := fun _ => true

namespace DRRSim

/-- One flow with a single unit-length packet, weight 1, capacity 1. -/
def tinyDRR : DRRScheduler :=
  mkDRR 1 [((Flow.new.add_packet ⟨0, 1, 0⟩), 1)]

/-- Two flows with one unit-length eligible packet each, weight 1, capacity 1. -/
def twoDRR : DRRScheduler :=
  mkDRR 1 [((Flow.new.add_packet ⟨0, 1, 0⟩), 1), ((Flow.new.add_packet ⟨0, 1, 0⟩), 1)]

/-- One flow whose only packet arrives at tick 150. -/
def longDRR : DRRScheduler :=
  mkDRR 1 [((Flow.new.add_packet ⟨0, 1, 150⟩), 1)]

/-- The DRR reference fixture of the repository's `ddr_test`: weights 3, 2, 5,
capacity 1. -/
def fixtureDRR : DRRScheduler :=
  mkDRR 1
    [(((Flow.new.add_packet ⟨0, 3, 0⟩).add_packet ⟨1, 4, 8⟩), 3),
     (((Flow.new.add_packet ⟨0, 3, 0⟩).add_packet ⟨1, 1, 12⟩), 2),
     (((Flow.new.add_packet ⟨0, 6, 0⟩).add_packet ⟨1, 1, 11⟩), 5)]

end DRRSim

namespace Sched

/-- WRR configuration refuting the claimed scan rule: flow 0 (weight 2) has a
packet at tick 0 and one at tick 5; flow 1 (weight 1) has a packet at tick 0. -/
def c6WRR : WRRScheduler :=
  mkWRR 1
    [((((FixedLengthFlow.new 1).add_packet 10 0).add_packet 11 5), 2),
     (((FixedLengthFlow.new 1).add_packet 20 0), 1)]

/-- Projection from a tick outcome back to the carried scheduler state. -/
def WrrStep.state : WrrStep → WRRScheduler
  | .stop s => s
  | .next s => s
  | .panicked s => s

/-- A WRR scheduler at timer 100 with work left: the next tick must abort. -/
def wrrStuck : WRRScheduler :=
  ⟨100, [1], [1], [(FixedLengthFlow.new 1).add_packet 1 0], Port.new 0 1⟩

/-- The WRR reference fixture of the repository's `wrr_test` (packet `pN` is
modeled by the name `N`): weights 2, 1, 1, bandwidth 1, fixed length 1. -/
def fixtureWRR : WRRScheduler :=
  mkWRR 1
    [((((((FixedLengthFlow.new 1).add_packet 1 0).add_packet 4 1).add_packet 6 2
         ).add_packet 8 4).add_packet 11 6, 2),
     (((((FixedLengthFlow.new 1).add_packet 2 0).add_packet 5 1).add_packet 9 5
         ).add_packet 13 7, 1),
     (((((FixedLengthFlow.new 1).add_packet 3 0).add_packet 7 2).add_packet 10 5
         ).add_packet 12 6, 1)]

/-- Two equal-weight WFQ flows with one unit packet each at tick 0: every
tick with both eligible is a finish-time tie. -/
def c4WFQ : WFQScheduler :=
  mkWFQ 1
    [((VariableLengthFlow.new.packet_arrive ⟨0, 1⟩ 0), 1),
     ((VariableLengthFlow.new.packet_arrive ⟨1, 1⟩ 0), 1)]

/-- WFQ configuration with weights 2 and 1: the finish-time estimates 3/2 and
3 never tie, so the random stream is never consulted. -/
def noTieWFQ : WFQScheduler :=
  mkWFQ 1
    [((VariableLengthFlow.new.packet_arrive ⟨0, 1⟩ 0), 2),
     ((VariableLengthFlow.new.packet_arrive ⟨1, 1⟩ 0), 1)]

/-- One WFQ flow with two unit packets at tick 0 (no tie ever arises, so runs
reduce without deciding any rational comparison). -/
def wfqTiny : WFQScheduler :=
  mkWFQ 1
    [(((VariableLengthFlow.new.packet_arrive ⟨5, 1⟩ 0).packet_arrive ⟨6, 1⟩ 0), 1)]

/-- One WFQ flow whose only packet arrives at tick 150. -/
def wfqLong : WFQScheduler :=
  mkWFQ 1 [((VariableLengthFlow.new.packet_arrive ⟨5, 1⟩ 150), 1)]

end Sched

end Fixtures


namespace DRRSim

/-- Unfolding of `DRRScheduler.addAll` over a whole list of registrations. -/
theorem DRRScheduler.drr_addAll_eq (s : DRRScheduler) (l : List (Flow × Nat)) :
    s.addAll l = ⟨s.timer, s.flows ++ l.map (fun e => e.1),
                  s.weights ++ l.map (fun e => e.2),
                  s.deficit_counters ++ l.map (fun e => e.2), s.output_link⟩ := by
  induction l generalizing s with
  | nil => simp [DRRScheduler.addAll]
  | cons e rest ih => simp [DRRScheduler.addAll, DRRScheduler.add_flow, ih]

/-- Shape of a freshly built DRR scheduler. -/
theorem mkDRR_eq (capacity : Nat) (l : List (Flow × Nat)) :
    mkDRR capacity l = ⟨0, l.map (fun e => e.1), l.map (fun e => e.2),
                        l.map (fun e => e.2), ⟨capacity, 0, []⟩⟩ := by
  simp [mkDRR, DRRScheduler.new, DRRScheduler.drr_addAll_eq]

/-- C10: `DRRScheduler::add_flow` pushes the flow's weight as its initial
deficit counter (not zero), so before any end-of-round replenishment every
flow already holds one weight's worth of credit. -/
theorem drr_deficit_initialized_to_weight :
    (∀ (s : DRRScheduler) (f : Flow) (w : Nat),
        (s.add_flow f w).deficit_counters = s.deficit_counters ++ [w] ∧
        (s.add_flow f w).weights = s.weights ++ [w]) ∧
    ∀ (capacity : Nat) (l : List (Flow × Nat)),
        (mkDRR capacity l).deficit_counters = l.map (fun e => e.2) := by
  refine ⟨fun s f w => ⟨rfl, rfl⟩, fun capacity l => ?_⟩
  simp [mkDRR_eq]

/-- C7: the DRR reference fixture (weights 3, 2, 5, capacity 1, packets as in
the repository's `ddr_test`) terminates with `timer = 15` and departure
history `[(0,0), (1,0), (2,0), (1,1), (2,1), (0,1)]`. -/
theorem drr_reference_fixture_exact :
    (DRRScheduler.run 20 fixtureDRR).map (fun s => (s.timer, s.output_link.history))
      = some (15, [(0, 0), (1, 0), (2, 0), (1, 1), (2, 1), (0, 1)]) := by
  decide

/-- C3 counterexample: with capacity 2 and load 1, `OutputLink::tick` leaves
the load at 1, not at `max (1 - 2) 0 = 0` as the claim demands. -/
theorem output_link_tick_not_floored :
    (OutputLink.tick ⟨2, 1, []⟩).current_load = 1 ∧
    ((1 : Int) = max ((1 : Int) - 2) 0 → False) := by decide

/-- C3 amended: `OutputLink::tick` subtracts the capacity exactly when
`capacity ≤ current_load` and otherwise leaves the load unchanged (so a
positive load below the capacity persists instead of being floored to 0);
capacity and history are untouched. -/
theorem output_link_tick_characterization (l : OutputLink) :
    (l.capacity ≤ l.current_load →
        (l.tick).current_load = l.current_load - l.capacity) ∧
    (l.current_load < l.capacity → (l.tick).current_load = l.current_load) ∧
    (l.tick).capacity = l.capacity ∧ (l.tick).history = l.history := by
  unfold OutputLink.tick
  split <;> simp_all [Nat.lt_iff_add_one_le]

/-- Witness for `output_link_tick_characterization` at loads 5 (capacity 2)
and 3 (capacity 5). -/
theorem output_link_tick_characterization_witness :
    (OutputLink.tick ⟨2, 5, []⟩).current_load = 3 ∧
    (OutputLink.tick ⟨5, 3, []⟩).current_load = 3 :=
  ⟨(output_link_tick_characterization ⟨2, 5, []⟩).1 (by decide),
   (output_link_tick_characterization ⟨5, 3, []⟩).2.1 (by decide)⟩

/-- C5 counterexample: in the single scheduling round of `twoDRR` (capacity
1) both unit packets are admitted within the same sweep: the loop iteration
for flow 1 calls `OutputLink::add` from the state `⟨1, 1, [(0, 0)]⟩` whose
load is 1, not 0; the run's final history confirms both admissions happened
in that round (timer 1). -/
theorem drr_admits_into_busy_link :
    (drrFlowStep 1 ⟨1, 0, []⟩ 0 ⟨[⟨0, 1, 0⟩]⟩ 1).1 = ⟨1, 1, [(0, 0)]⟩ ∧
    (drrFlowStep 1 ⟨1, 1, [(0, 0)]⟩ 1 ⟨[⟨0, 1, 0⟩]⟩ 1).1 = ⟨1, 2, [(0, 0), (1, 0)]⟩ ∧
    ((1 : Nat) = 0 → False) ∧
    (DRRScheduler.run 5 twoDRR).map (fun s => (s.timer, s.output_link.history))
      = some (1, [(0, 0), (1, 0)]) := by decide

/-- C5 amended: a busy link short-circuits `DRRScheduler::schedule` (the
round makes no admission at all), so only the first admission of a round is
guaranteed to see an empty link; `Port::submit` itself appends
unconditionally, with no occupancy guard. -/
theorem drr_schedule_skips_busy_link :
    (∀ s : DRRScheduler, s.output_link.empty = false → s.schedule = (false, s)) ∧
    (∀ (p : Sched.Port) (pk : Sched.Packet),
        (p.submit pk).in_queue = p.in_queue ++ [pk] ∧
        (p.submit pk).out_queue = p.out_queue) := by
  refine ⟨fun s h => ?_, fun p pk => ⟨rfl, rfl⟩⟩
  unfold DRRScheduler.schedule
  simp [h]

/-- Witness for `drr_schedule_skips_busy_link`: a scheduler whose link holds
load 3 schedules nothing. -/
theorem drr_schedule_skips_busy_link_witness :
    (⟨0, [⟨[⟨0, 1, 0⟩]⟩], [1], [1], ⟨1, 3, []⟩⟩ : DRRScheduler).schedule
      = (false, ⟨0, [⟨[⟨0, 1, 0⟩]⟩], [1], [1], ⟨1, 3, []⟩⟩) ∧
    (Sched.Port.submit ⟨0, 1, [⟨7, 2⟩], [], 1⟩ ⟨8, 3⟩).in_queue = [⟨7, 2⟩, ⟨8, 3⟩] :=
  ⟨drr_schedule_skips_busy_link.1 _ (by decide),
   by rw [(drr_schedule_skips_busy_link.2 ⟨0, 1, [⟨7, 2⟩], [], 1⟩ ⟨8, 3⟩).1]; rfl⟩

/-- C1 counterexample: the one-flow, one-unit-packet DRR run terminates (the
flow is drained) with the output link still holding load 1, so the egress
resource is not empty at termination. -/
theorem drr_run_leaves_link_loaded :
    (DRRScheduler.run 5 tinyDRR).map
        (fun s => (s.flows.all (fun f => f.empty), s.output_link.current_load))
      = some (true, 1) ∧ ((1 : Nat) = 0 → False) := by decide

end DRRSim

namespace Sched

/-- Unfolding of `WRRScheduler.addAll` over a whole list of registrations. -/
theorem WRRScheduler.wrr_addAll_eq (s : WRRScheduler) (l : List (FixedLengthFlow × Nat)) :
    s.addAll l = ⟨s.timer, s.weights ++ l.map (fun e => e.2),
                  s.current_weight ++ l.map (fun e => e.2),
                  s.flows ++ l.map (fun e => e.1), s.output_port⟩ := by
  induction l generalizing s with
  | nil => simp [WRRScheduler.addAll]
  | cons e rest ih => simp [WRRScheduler.addAll, WRRScheduler.add_flow, ih]

/-- Shape of a freshly built WRR scheduler. -/
theorem mkWRR_eq (bandwidth : Nat) (l : List (FixedLengthFlow × Nat)) :
    mkWRR bandwidth l = ⟨0, l.map (fun e => e.2), l.map (fun e => e.2),
                         l.map (fun e => e.1), Port.new 0 bandwidth⟩ := by
  simp [mkWRR, WRRScheduler.new, WRRScheduler.wrr_addAll_eq]

/-- Unfolding of `WFQScheduler.addAll` over a whole list of registrations. -/
theorem WFQScheduler.wfq_addAll_eq (s : WFQScheduler) (l : List (VariableLengthFlow × ℚ)) :
    s.addAll l = ⟨s.timer, s.weights ++ l.map (fun e => e.2),
                  s.total_weight + (l.map (fun e => e.2)).sum,
                  s.flows ++ l.map (fun e => e.1), s.output_port⟩ := by
  induction l generalizing s with
  | nil => simp [WFQScheduler.addAll]
  | cons e rest ih => simp [WFQScheduler.addAll, WFQScheduler.add_flow, ih]; ring

/-- Shape of a freshly built WFQ scheduler. -/
theorem mkWFQ_eq (bandwidth : Nat) (l : List (VariableLengthFlow × ℚ)) :
    mkWFQ bandwidth l = ⟨0, l.map (fun e => e.2), (l.map (fun e => e.2)).sum,
                         l.map (fun e => e.1), Port.new 0 bandwidth⟩ := by
  simp [mkWFQ, WFQScheduler.new, WFQScheduler.wfq_addAll_eq]

/-- C6 counterexample: in `c6WRR` after one tick (timer 1), flow 1 still has
quantum 1 and an eligible head packet (name 20, arrived at 0), yet the second
tick serves nobody (the scan stopped at flow 0, whose quantum is positive but
whose head arrives only at tick 5) and also does not reset the quanta to the
weights `[2, 1]` even though no flow was served. -/
theorem wrr_scan_blocked_by_ineligible_flow :
    ((c6WRR.tick).state.flows.getD 1 ⟨0, []⟩).peek_packet (c6WRR.tick).state.timer
        = some ⟨20, 1⟩ ∧
    (c6WRR.tick).state.current_weight.getD 1 0 = 1 ∧
    (((c6WRR.tick).state.tick).state.output_port.out_queue = [⟨10, 1⟩] ∧
     ((c6WRR.tick).state.tick).state.output_port.in_queue = []) ∧
    ((c6WRR.tick).state.tick).state.flows.getD 1 ⟨0, []⟩ = ⟨1, [(⟨20, 1⟩, 0)]⟩ ∧
    ((c6WRR.tick).state.tick).state.current_weight = [1, 1] ∧
    ((c6WRR.tick).state.tick).state.weights = [2, 1] ∧
    (([1, 1] : List Nat) = [2, 1] → False) := by decide

/-- C9 counterexample: DRR and WFQ runs whose timers pass 150 finish normally
with their packet delivered — neither scheduler has the defensive abort, so
exceeding the (WRR) ceiling of 100 ticks does not fail fatally. -/
theorem drr_wfq_run_past_ceiling :
    (DRRSim.DRRScheduler.run 160 DRRSim.longDRR).map
        (fun s => (s.timer, s.output_link.history)) = some (150, [(0, 0)]) ∧
    (WFQScheduler.run 160 coinsF 0 wfqLong).map
        (fun r => (r.1.timer, namesOf r.1.output_port.out_queue)) = some (151, [5]) ∧
    100 < 150 := by
  refine ⟨by decide, by decide, by decide⟩

/-- C9 amended: only WRR has the stuck-loop safeguard: whenever work remains
and the timer has reached 100, `WRRScheduler::tick` aborts fatally; DRR (see
the first conjunct's counterpart `drr_wfq_run_past_ceiling`) has no ceiling,
shown again here by the 150-tick run finishing normally. -/
theorem wrr_tick_ceiling_abort :
    (∀ s : WRRScheduler, s.flows.all (fun f => f.empty) = false → 100 ≤ s.timer →
        (s.tick).isPanicked = true) ∧
    (DRRSim.DRRScheduler.run 160 DRRSim.longDRR).map (fun s => s.timer) = some 150 := by
  refine ⟨fun s h ht => ?_, by decide⟩
  unfold WRRScheduler.tick
  rcases hs : s.schedule with ⟨b, p2, f2, c2⟩
  simp only [h, hs, Bool.false_eq_true, if_false]
  rw [if_pos (by omega : 100 < s.timer + 1)]
  rfl

/-- Witness for `wrr_tick_ceiling_abort`: the scheduler `wrrStuck` (timer
100, one queued packet) aborts on its next tick. -/
theorem wrr_tick_ceiling_abort_witness :
    (wrrStuck.tick).isPanicked = true :=
  wrr_tick_ceiling_abort.1 wrrStuck (by decide) (by decide)

end Sched

namespace DRRSim

/-- A `false` from `DRRScheduler::tick` happens only in the all-drained
check, before any mutation. -/
theorem DRRScheduler.drr_tick_false {s s2 : DRRScheduler} (h : s.tick = (false, s2)) :
    s2 = s ∧ s.flows.all (fun f => f.empty) = true := by
  simp only [DRRScheduler.tick] at h
  split at h
  next hall =>
    rw [Prod.mk.injEq] at h
    exact ⟨h.2.symm, hall⟩
  next =>
    split at h
    · simp at h
    · split at h <;> simp at h

/-- A terminating DRR run ends with every flow drained. -/
theorem DRRScheduler.drr_run_drains {fuel : Nat} {s s2 : DRRScheduler}
    (h : DRRScheduler.run fuel s = some s2) :
    s2.flows.all (fun f => f.empty) = true := by
  induction fuel generalizing s with
  | zero => simp [DRRScheduler.run] at h
  | succ n ih =>
    unfold DRRScheduler.run at h
    rcases ht : s.tick with ⟨b, s3⟩
    rw [ht] at h
    cases b with
    | true => exact ih h
    | false =>
      simp only [Option.some.injEq] at h
      rcases DRRScheduler.drr_tick_false ht with ⟨hs3, hall⟩
      rw [← h, hs3]
      exact hall

end DRRSim

namespace Sched

/-- A `stop` from `WRRScheduler::tick` happens only in the all-drained check,
before any mutation. -/
theorem WRRScheduler.tick_stop {s s2 : WRRScheduler} (h : s.tick = .stop s2) :
    s2 = s ∧ s.flows.all (fun f => f.empty) = true := by
  simp only [WRRScheduler.tick] at h
  split at h
  next hall => exact ⟨(WrrStep.stop.injEq .. |>.mp h).symm, hall⟩
  next =>
    split at h <;> split at h <;> simp at h

/-- A finished WRR run ends with every flow drained and the port's in queue
flushed. -/
theorem WRRScheduler.wrr_run_drains {fuel : Nat} {s s2 : WRRScheduler}
    (h : WRRScheduler.run fuel s = .finished s2) :
    s2.flows.all (fun f => f.empty) = true ∧ s2.output_port.in_queue = [] := by
  induction fuel generalizing s with
  | zero => simp [WRRScheduler.run] at h
  | succ n ih =>
    unfold WRRScheduler.run at h
    rcases ht : s.tick with s3 | s3 | s3 <;> rw [ht] at h
    · rcases WRRScheduler.tick_stop ht with ⟨hs3, hall⟩
      rw [WrrRun.finished.injEq] at h
      rw [← h]
      subst hs3
      exact ⟨hall, rfl⟩
    · exact ih h
    · simp at h

/-- A `false` from `WFQScheduler::tick` happens only in the all-drained
check, before any mutation. -/
theorem WFQScheduler.wfq_tick_false {s s2 : WFQScheduler} {coins : Nat → Bool}
    {cidx cidx2 : Nat} (h : s.tick coins cidx = (false, s2, cidx2)) :
    s2 = s ∧ s.flows.all (fun f => f.empty) = true := by
  unfold WFQScheduler.tick at h
  split at h
  next hall =>
    rw [Prod.mk.injEq] at h
    rw [Prod.mk.injEq] at h
    exact ⟨h.2.1.symm, hall⟩
  next =>
    split at h
    · split at h <;> simp at h
    · simp at h

/-- A terminating WFQ run (under any stream of random draws) ends with every
flow drained and the port's in queue flushed. -/
theorem WFQScheduler.wfq_run_drains {fuel : Nat} {coins : Nat → Bool} {cidx : Nat}
    {s : WFQScheduler} {r : WFQScheduler × Nat}
    (h : WFQScheduler.run fuel coins cidx s = some r) :
    r.1.flows.all (fun f => f.empty) = true ∧ r.1.output_port.in_queue = [] := by
  induction fuel generalizing s cidx with
  | zero => simp [WFQScheduler.run] at h
  | succ n ih =>
    unfold WFQScheduler.run at h
    rcases ht : s.tick coins cidx with ⟨b, s3, cidx3⟩
    rw [ht] at h
    cases b with
    | true => exact ih h
    | false =>
      simp only [Option.some.injEq] at h
      rcases WFQScheduler.wfq_tick_false ht with ⟨hs3, hall⟩
      rw [← h]
      subst hs3
      exact ⟨hall, rfl⟩

end Sched

/-- C1 amended: whenever `run()` terminates, every flow's queue is drained
(for all three schedulers); WRR and WFQ additionally leave the port's in
queue empty, because `run()` ends with `proceed_rest`; the DRR output link,
however, may retain residual load at termination (see the counterexample),
so "the resource is empty" holds only for the WRR/WFQ port, not for DRR. -/
theorem sched_terminating_runs_drain_flows :
    (∀ (fuel : Nat) (s s2 : DRRSim.DRRScheduler),
        DRRSim.DRRScheduler.run fuel s = some s2 →
        s2.flows.all (fun f => f.empty) = true) ∧
    (∀ (fuel : Nat) (s s2 : Sched.WRRScheduler),
        Sched.WRRScheduler.run fuel s = .finished s2 →
        s2.flows.all (fun f => f.empty) = true ∧ s2.output_port.in_queue = []) ∧
    (∀ (fuel : Nat) (coins : Nat → Bool) (cidx : Nat) (s : Sched.WFQScheduler)
        (r : Sched.WFQScheduler × Nat),
        Sched.WFQScheduler.run fuel coins cidx s = some r →
        r.1.flows.all (fun f => f.empty) = true ∧ r.1.output_port.in_queue = []) :=
  ⟨fun _ _ _ h => DRRSim.DRRScheduler.drr_run_drains h,
   fun _ _ _ h => Sched.WRRScheduler.wrr_run_drains h,
   fun _ _ _ _ _ h => Sched.WFQScheduler.wfq_run_drains h⟩

/-- Witness for `sched_terminating_runs_drain_flows`: concrete terminating
runs of all three schedulers, shown drained (and port-flushed). -/
theorem sched_terminating_runs_drain_flows_witness :
    ((⟨1, [⟨[]⟩], [1], [1], ⟨1, 1, [(0, 0)]⟩⟩ : DRRSim.DRRScheduler).flows.all
        (fun f => f.empty) = true) ∧
    ((⟨16, [2, 1, 1], [2, 0, 0], [⟨1, []⟩, ⟨1, []⟩, ⟨1, []⟩],
        ⟨0, 1, [],
         [⟨1, 1⟩, ⟨4, 1⟩, ⟨2, 1⟩, ⟨3, 1⟩, ⟨6, 1⟩, ⟨8, 1⟩, ⟨5, 1⟩, ⟨7, 1⟩,
          ⟨11, 1⟩, ⟨9, 1⟩, ⟨10, 1⟩, ⟨13, 1⟩, ⟨12, 1⟩], 0⟩⟩ :
          Sched.WRRScheduler).flows.all (fun f => f.empty) = true ∧
     (⟨16, [2, 1, 1], [2, 0, 0], [⟨1, []⟩, ⟨1, []⟩, ⟨1, []⟩],
        ⟨0, 1, [],
         [⟨1, 1⟩, ⟨4, 1⟩, ⟨2, 1⟩, ⟨3, 1⟩, ⟨6, 1⟩, ⟨8, 1⟩, ⟨5, 1⟩, ⟨7, 1⟩,
          ⟨11, 1⟩, ⟨9, 1⟩, ⟨10, 1⟩, ⟨13, 1⟩, ⟨12, 1⟩], 0⟩⟩ :
          Sched.WRRScheduler).output_port.in_queue = []) ∧
    ((⟨2, [(1 : ℚ)], 0 + 1, [⟨[]⟩],
        ⟨0, 1, [], [⟨5, 1⟩, ⟨6, 1⟩], 0⟩⟩ : Sched.WFQScheduler).flows.all
        (fun f => f.empty) = true ∧
     (⟨2, [(1 : ℚ)], 0 + 1, [⟨[]⟩],
        ⟨0, 1, [], [⟨5, 1⟩, ⟨6, 1⟩], 0⟩⟩ : Sched.WFQScheduler).output_port.in_queue = []) :=
  ⟨sched_terminating_runs_drain_flows.1 5 DRRSim.tinyDRR _ (by decide),
   sched_terminating_runs_drain_flows.2.1 20 Sched.fixtureWRR _ (by decide),
   sched_terminating_runs_drain_flows.2.2 4 coinsF 0 Sched.wfqTiny
     (⟨2, [(1 : ℚ)], 0 + 1, [⟨[]⟩], ⟨0, 1, [], [⟨5, 1⟩, ⟨6, 1⟩], 0⟩⟩, 0) rfl⟩

theorem mem_insertByKey {key : α → Nat} {a x : α} {l : List α} :
    x ∈ insertByKey key a l ↔ x = a ∨ x ∈ l := by
  induction l with
  | nil => simp [insertByKey]
  | cons b t ih =>
    rw [insertByKey]
    split
    · simp
    · simp only [List.mem_cons, ih]
      tauto

/-- Inserting by key preserves sortedness. -/
theorem sorted_insertByKey {key : α → Nat} (a : α) {l : List α}
    (h : l.Sorted (fun x y => key x ≤ key y)) :
    (insertByKey key a l).Sorted (fun x y => key x ≤ key y) := by
  induction l with
  | nil => simp [insertByKey]
  | cons b t ih =>
    rw [List.sorted_cons] at h
    rw [insertByKey]
    split
    next hab =>
      refine List.sorted_cons.mpr ⟨?_, List.sorted_cons.mpr h⟩
      intro c hc
      rcases List.mem_cons.mp hc with rfl | hc
      · exact hab
      · exact le_trans hab (h.1 c hc)
    next hab =>
      refine List.sorted_cons.mpr ⟨?_, ih h.2⟩
      intro c hc
      rcases mem_insertByKey.mp hc with rfl | hc
      · exact le_of_lt (Nat.lt_of_not_le hab)
      · exact h.1 c hc

/-- The stable insertion sort always sorts by the key. -/
theorem sorted_sortByKey (key : α → Nat) (l : List α) :
    (sortByKey key l).Sorted (fun x y => key x ≤ key y) := by
  induction l with
  | nil => simp [sortByKey]
  | cons a t ih => exact sorted_insertByKey a ih

/-- Inserting an element whose key is at most the head's key just conses. -/
theorem insertByKey_eq_cons {key : α → Nat} {a : α} : ∀ {l : List α},
    (∀ b, l.head? = some b → key a ≤ key b) → insertByKey key a l = a :: l
  | [], _ => rfl
  | b :: t, h => by rw [insertByKey, if_pos (h b rfl)]

/-- Stability of push-then-sort on an already sorted list: the new element
lands right after the existing elements whose key is less than or equal to
its own (in particular after all elements with an equal key, preserving
insertion order among ties). -/
theorem sortByKey_sorted_append (key : α → Nat) {l : List α}
    (h : l.Sorted (fun x y => key x ≤ key y)) (p : α) :
    sortByKey key (l ++ [p])
      = l.takeWhile (fun q => key q ≤ key p) ++ p :: l.dropWhile (fun q => key q ≤ key p) := by
  induction l with
  | nil => simp [sortByKey, insertByKey]
  | cons a t ih =>
    rw [List.sorted_cons] at h
    rw [List.cons_append, sortByKey, ih h.2]
    by_cases hap : key a ≤ key p
    · rw [List.takeWhile_cons_of_pos (by simpa using hap),
          List.dropWhile_cons_of_pos (by simpa using hap)]
      refine insertByKey_eq_cons ?_
      intro b hb
      cases htw : t.takeWhile (fun q => decide (key q ≤ key p)) with
      | nil =>
        rw [htw, List.nil_append, List.head?_cons, Option.some.injEq] at hb
        rw [hb] at hap
        exact hap
      | cons c tc =>
        rw [htw, List.cons_append, List.head?_cons, Option.some.injEq] at hb
        have hc : c ∈ t := List.takeWhile_subset _ (htw ▸ List.mem_cons_self c tc)
        exact hb ▸ h.1 c hc
    · have hta : ∀ x ∈ t, ¬ (key x ≤ key p) := by
        intro x hx hc
        exact hap (le_trans (h.1 x hx) hc)
      have htw : t.takeWhile (fun q => decide (key q ≤ key p)) = [] := by
        cases t with
        | nil => rfl
        | cons c tc =>
          exact List.takeWhile_cons_of_neg (by simpa using hta c (List.mem_cons_self c tc))
      have hdw : t.dropWhile (fun q => decide (key q ≤ key p)) = t := by
        cases t with
        | nil => rfl
        | cons c tc =>
          exact List.dropWhile_cons_of_neg (by simpa using hta c (List.mem_cons_self c tc))
      rw [List.takeWhile_cons_of_neg (by simpa using hap),
          List.dropWhile_cons_of_neg (by simpa using hap), htw, hdw,
          List.nil_append, List.nil_append, insertByKey, if_neg hap]
      congr 1
      refine insertByKey_eq_cons ?_
      intro b hb
      cases t with
      | nil => simp at hb
      | cons c tc =>
        rw [List.head?_cons, Option.some.injEq] at hb
        rw [hb] at h
        exact h.1 b (hb ▸ List.mem_cons_self c tc)

namespace DRRSim

theorem histFor_nil (i : Nat) : histFor i [] = [] := rfl

theorem histFor_append (i : Nat) (h1 h2 : List (Nat × Nat)) :
    histFor i (h1 ++ h2) = histFor i h1 ++ histFor i h2 := by
  simp [histFor]

theorem histFor_cons_self (i x : Nat) (h : List (Nat × Nat)) :
    histFor i ((i, x) :: h) = x :: histFor i h := by
  simp [histFor]

theorem histFor_cons_ne {a j : Nat} (hne : a ≠ j) (x : Nat) (h : List (Nat × Nat)) :
    histFor j ((a, x) :: h) = histFor j h := by
  simp [histFor, hne]

/-- One sweep of the DRR scheduling loop starting at absolute index `i`: the
link's history grows by a suffix `h2` whose entries all concern flows at
index `i` or later, the parallel vectors keep their lengths, the capacity is
unchanged, and for every flow the new history entries followed by its new
queue are exactly its old queue. -/
theorem drrScheduleGo_spec (t : Nat) (fs : List Flow) :
    ∀ (ds : List Nat) (link : OutputLink) (i : Nat), fs.length = ds.length →
      ∃ h2 : List (Nat × Nat),
        (drrScheduleGo t link i fs ds).1.history = link.history ++ h2 ∧
        (drrScheduleGo t link i fs ds).1.capacity = link.capacity ∧
        (∀ j, j < i → histFor j h2 = []) ∧
        (drrScheduleGo t link i fs ds).2.1.length = fs.length ∧
        (drrScheduleGo t link i fs ds).2.2.length = ds.length ∧
        (∀ k, k < fs.length →
          histFor (i + k) h2 ++ indicesOf ((drrScheduleGo t link i fs ds).2.1.getD k ⟨[]⟩)
            = indicesOf (fs.getD k ⟨[]⟩)) := by
  induction fs with
  | nil =>
    intro ds link i _
    exact ⟨[], by simp [drrScheduleGo], by simp [drrScheduleGo], fun j _ => rfl,
           by simp [drrScheduleGo], by simp [drrScheduleGo], fun k hk => by simp at hk⟩
  | cons f fs2 ih =>
    intro ds link i hlen
    cases ds with
    | nil => simp at hlen
    | cons d ds2 =>
      simp only [List.length_cons, Nat.succ.injEq] at hlen
      rcases hstep : drrFlowStep t link i f d with ⟨link2, f2, d2⟩
      rcases ih ds2 link2 (i + 1) hlen with
        ⟨h3, hh3, hcap3, hlow3, hflen3, hdlen3, hrel3⟩
      -- analyze the single step
      have hstepcases :
          (link2 = link ∧ f2 = f) ∨
          (∃ p, f.packets = p :: f2.packets ∧ p.index :: indicesOf f2 = indicesOf f ∧
            link2.history = link.history ++ [(i, p.index)] ∧
            link2.capacity = link.capacity) := by
        unfold drrFlowStep at hstep
        split at hstep
        next p hpk =>
          have hhd : f.packets.head? = some p := by
            unfold Flow.peek_packet at hpk
            split at hpk
            next q hh =>
              split at hpk
              · simp only [Option.some.injEq] at hpk
                rw [← hpk]
                exact hh
              · simp at hpk
            next hh => simp at hpk
          split at hstep
          next hd =>
            rw [Prod.mk.injEq, Prod.mk.injEq] at hstep
            refine Or.inr ⟨p, ?_, ?_, ?_, ?_⟩
            · rw [← hstep.2.1]
              exact (List.cons_head?_tail hhd).symm
            · rw [← hstep.2.1]
              have hht := (List.cons_head?_tail hhd)
              calc p.index :: indicesOf ⟨f.packets.tail⟩
                  = indicesOf ⟨p :: f.packets.tail⟩ := by simp [indicesOf]
                _ = indicesOf ⟨f.packets⟩ := by rw [hht]
                _ = indicesOf f := rfl
            · rw [← hstep.1]; rfl
            · rw [← hstep.1]; rfl
          next hd =>
            rw [Prod.mk.injEq, Prod.mk.injEq] at hstep
            exact Or.inl ⟨hstep.1.symm, hstep.2.1.symm⟩
        next hpk =>
          rw [Prod.mk.injEq, Prod.mk.injEq] at hstep
          exact Or.inl ⟨hstep.1.symm, hstep.2.1.symm⟩
      have hgo : drrScheduleGo t link i (f :: fs2) (d :: ds2)
          = ((drrScheduleGo t link2 (i + 1) fs2 ds2).1,
             f2 :: (drrScheduleGo t link2 (i + 1) fs2 ds2).2.1,
             d2 :: (drrScheduleGo t link2 (i + 1) fs2 ds2).2.2) := by
        rw [drrScheduleGo, hstep]
      rcases hstepcases with ⟨hl2, hf2⟩ | ⟨p, hcons, hidx, hh2, hc2⟩
      · -- the step served nothing
        refine ⟨h3, ?_, ?_, ?_, ?_, ?_, ?_⟩
        · rw [hgo, hh3, hl2]
        · rw [hgo, hcap3, hl2]
        · exact fun j hj => hlow3 j (Nat.lt_succ_of_lt hj)
        · rw [hgo]; simp [hflen3]
        · rw [hgo]; simp [hdlen3]
        · intro k hk
          rw [hgo]
          cases k with
          | zero =>
            simp only [List.getD_cons_zero, Nat.add_zero]
            rw [hf2, hlow3 i (Nat.lt_succ_self i)]
            rfl
          | succ k2 =>
            simp only [List.getD_cons_succ]
            have harith : i + (k2 + 1) = (i + 1) + k2 := by omega
            rw [harith]
            exact hrel3 k2 (by simpa using Nat.lt_of_succ_lt_succ hk)
      · -- flow `i` was served: its head packet entered the history
        refine ⟨(i, p.index) :: h3, ?_, ?_, ?_, ?_, ?_, ?_⟩
        · rw [hgo, hh3, hh2, List.append_assoc]
          rfl
        · rw [hgo, hcap3, hc2]
        · intro j hj
          rw [histFor_cons_ne (Nat.ne_of_gt hj)]
          exact hlow3 j (Nat.lt_succ_of_lt hj)
        · rw [hgo]; simp [hflen3]
        · rw [hgo]; simp [hdlen3]
        · intro k hk
          rw [hgo]
          cases k with
          | zero =>
            simp only [List.getD_cons_zero, Nat.add_zero]
            rw [histFor_cons_self, hlow3 i (Nat.lt_succ_self i)]
            simpa using hidx
          | succ k2 =>
            simp only [List.getD_cons_succ]
            have harith : i + (k2 + 1) = (i + 1) + k2 := by omega
            rw [histFor_cons_ne (by omega), harith]
            exact hrel3 k2 (by simpa using Nat.lt_of_succ_lt_succ hk)

end DRRSim

namespace DRRSim

theorem OutputLink.tick_history (l : OutputLink) : (l.tick).history = l.history := by
  unfold OutputLink.tick
  split <;> rfl

/-- One call to `DRRScheduler::schedule` preserves the conservation
invariant. -/
theorem DRRScheduler.drr_schedule_inv {init : List Flow} {s : DRRScheduler}
    (hinv : DRRInv init s) : DRRInv init (s.schedule).2 := by
  unfold DRRScheduler.schedule
  split
  · exact hinv
  rcases hinv with ⟨hf, hw, hd, hrel⟩
  rcases drrScheduleGo_spec s.timer s.flows s.deficit_counters s.output_link 0
      (by rw [hf, hd]) with ⟨h2, hh2, _, _, hflen, hdlen, hrel2⟩
  rcases hgo : drrScheduleGo s.timer s.output_link 0 s.flows s.deficit_counters with
    ⟨link3, flows3, ds3⟩
  rw [hgo] at hh2 hflen hdlen hrel2
  refine ⟨by simpa [hflen] using hf, hw, by simpa [hdlen] using hd, ?_⟩
  intro k hk
  simp only
  rw [hh2, histFor_append]
  have hk2 : k < s.flows.length := by rw [hf]; exact hk
  have := hrel2 k hk2
  rw [Nat.zero_add] at this
  rw [List.append_assoc, this]
  exact hrel k hk

/-- One call to `DRRScheduler::tick` preserves the conservation invariant
(whatever the returned boolean). -/
theorem DRRScheduler.drr_tick_inv {init : List Flow} {s : DRRScheduler} {b : Bool}
    {s2 : DRRScheduler} (hinv : DRRInv init s) (ht : s.tick = (b, s2)) :
    DRRInv init s2 := by
  have hmid : DRRInv init
      { s with timer := s.timer + 1, output_link := s.output_link.tick } := by
    refine ⟨hinv.1, hinv.2.1, hinv.2.2.1, ?_⟩
    intro k hk
    simp only [OutputLink.tick_history]
    exact hinv.2.2.2 k hk
  simp only [DRRScheduler.tick] at ht
  split at ht
  · rw [Prod.mk.injEq] at ht
    rw [← ht.2]
    exact hinv
  · split at ht
    · rw [Prod.mk.injEq] at ht
      rw [← ht.2]
      exact hmid
    · have hsch := DRRScheduler.drr_schedule_inv hmid
      split at ht
      · rw [Prod.mk.injEq] at ht
        rw [← ht.2]
        rcases hsch with ⟨hf, hw, hd, hrel⟩
        refine ⟨hf, hw, ?_, hrel⟩
        simp only [List.length_zipWith]
        omega
      · rw [Prod.mk.injEq] at ht
        rw [← ht.2]
        exact hsch

/-- A whole DRR run preserves the conservation invariant. -/
theorem DRRScheduler.drr_run_inv {init : List Flow} {fuel : Nat} {s s2 : DRRScheduler}
    (hinv : DRRInv init s) (h : DRRScheduler.run fuel s = some s2) :
    DRRInv init s2 := by
  induction fuel generalizing s with
  | zero => simp [DRRScheduler.run] at h
  | succ n ih =>
    unfold DRRScheduler.run at h
    rcases ht : s.tick with ⟨b, s3⟩
    rw [ht] at h
    cases b with
    | true => exact ih (DRRScheduler.drr_tick_inv hinv ht) h
    | false =>
      simp only [Option.some.injEq] at h
      rw [← h]
      exact DRRScheduler.drr_tick_inv hinv ht

theorem getD_map_of_lt {β : Type u} (f : α → β) (l : List α) (k : Nat)
    (hk : k < l.length) (d : β) (d2 : α) : (l.map f).getD k d = f (l.getD k d2) := by
  rw [List.getD_eq_getElem?_getD, List.getD_eq_getElem?_getD,
      List.getElem?_eq_getElem (by simpa using hk), List.getElem?_eq_getElem hk]
  simp

/-- The initial conservation invariant of a freshly built DRR scheduler. -/
theorem mkDRR_inv (capacity : Nat) (l : List (Flow × Nat)) :
    DRRInv (l.map (fun e => e.1)) (mkDRR capacity l) := by
  rw [mkDRR_eq]
  refine ⟨by simp, by simp, by simp, ?_⟩
  intro k hk
  simp [histFor_nil]

/-- End-to-end conservation and order for DRR: in a terminating run from a
freshly built scheduler, the history entries recorded for flow `k` are
exactly the packet indices of its initial queue, in queue order. -/
theorem drr_run_hist {capacity : Nat} {l : List (Flow × Nat)} {fuel : Nat}
    {s2 : DRRScheduler} (h : DRRScheduler.run fuel (mkDRR capacity l) = some s2) :
    ∀ k, k < l.length →
      histFor k s2.output_link.history = indicesOf ((l.getD k (⟨[]⟩, 0)).1) := by
  intro k hk
  have hinv := DRRScheduler.drr_run_inv (mkDRR_inv capacity l) h
  have hall := DRRScheduler.drr_run_drains h
  rcases hinv with ⟨hf, _, _, hrel⟩
  have hk2 : k < l.length := hk
  have hrelk := hrel k (by simpa using hk)
  have hemp : (s2.flows.getD k ⟨[]⟩).packets = [] := by
    have hklen : k < s2.flows.length := by
      rw [hf]; simpa using hk
    have hmem : s2.flows.getD k ⟨[]⟩ ∈ s2.flows := by
      rw [List.getD_eq_getElem?_getD, List.getElem?_eq_getElem hklen]
      exact List.getElem_mem hklen
    have := List.all_eq_true.mp hall _ hmem
    simpa [Flow.empty, List.isEmpty_iff] using this
  have h0 : indicesOf (s2.flows.getD k ⟨[]⟩) = [] := by
    simp only [indicesOf, hemp, List.map_nil]
  rw [h0, List.append_nil] at hrelk
  rw [hrelk]
  rw [getD_map_of_lt (fun e => e.1) l k hk ⟨[]⟩ (⟨[]⟩, 0)]

end DRRSim

namespace Sched

theorem Port.tick_outin (p : Port) :
    (p.tick).out_queue ++ (p.tick).in_queue = p.out_queue ++ p.in_queue := by
  unfold Port.tick
  rcases hq : p.in_queue with _ | ⟨pkt, rest⟩
  · simp [hq]
  · dsimp only
    split
    · simp [hq]
    · simp [hq]

theorem Port.submit_outin (p : Port) (x : Packet) :
    (p.submit x).out_queue ++ (p.submit x).in_queue = (p.out_queue ++ p.in_queue) ++ [x] := by
  simp [Port.submit]

theorem Port.proceed_rest_outin (p : Port) :
    (p.proceed_rest).out_queue ++ (p.proceed_rest).in_queue
      = p.out_queue ++ p.in_queue := by
  simp [Port.proceed_rest]

theorem ofNames_append (names : List Nat) (q1 q2 : List Packet) :
    ofNames names (q1 ++ q2) = ofNames names q1 ++ ofNames names q2 := by
  simp [ofNames]

theorem ofNames_singleton_mem {names : List Nat} {x : Packet}
    (h : x.name ∈ names) : ofNames names [x] = [x] := by
  simp [ofNames, List.elem_iff, h]

theorem ofNames_singleton_not_mem {names : List Nat} {x : Packet}
    (h : x.name ∉ names) : ofNames names [x] = [] := by
  simp [ofNames, List.elem_iff, h]

end Sched

namespace Sched

/-- Pairwise disjointness of name lists, in usable form: a name occurring in
list `i` does not occur in any other list `j`. -/
theorem namesDisjointB_spec : ∀ {L : List (List Nat)}, namesDisjointB L = true →
    ∀ i j, i ≠ j → ∀ n, n ∈ L.getD i [] → n ∉ L.getD j [] := by
  intro L
  induction L with
  | nil =>
    intro _ i j _ n hn
    simp [List.getD] at hn
  | cons a rest ih =>
    intro hd i j hij n hn hnj
    rw [namesDisjointB, Bool.and_eq_true] at hd
    have ha : ∀ m ∈ a, ∀ b ∈ rest, m ∉ b := by
      intro m hm b hb
      have h1 := List.all_eq_true.mp hd.1 m hm
      have h2 := List.all_eq_true.mp h1 b hb
      simp only [Bool.not_eq_eq_eq_not, Bool.not_true] at h2
      simpa using h2
    cases i with
    | zero =>
      cases j with
      | zero => exact hij rfl
      | succ j2 =>
        simp only [List.getD_cons_zero] at hn
        simp only [List.getD_cons_succ] at hnj
        by_cases hj2 : j2 < rest.length
        · have hb : rest.getD j2 [] ∈ rest := by
            rw [List.getD_eq_getElem?_getD, List.getElem?_eq_getElem hj2]
            exact List.getElem_mem hj2
          exact ha n hn _ hb hnj
        · rw [List.getD_eq_default _ _ (Nat.le_of_not_lt hj2)] at hnj
          simp at hnj
    | succ i2 =>
      cases j with
      | zero =>
        simp only [List.getD_cons_succ] at hn
        simp only [List.getD_cons_zero] at hnj
        by_cases hi2 : i2 < rest.length
        · have hb : rest.getD i2 [] ∈ rest := by
            rw [List.getD_eq_getElem?_getD, List.getElem?_eq_getElem hi2]
            exact List.getElem_mem hi2
          exact ha n hnj _ hb hn
        · rw [List.getD_eq_default _ _ (Nat.le_of_not_lt hi2)] at hn
          simp at hn
      | succ j2 =>
        simp only [List.getD_cons_succ] at hn hnj
        exact ih hd.2 i2 j2 (by omega) n hn hnj

/-- When no flow is non-empty with a positive quantum, the WRR scan passes
over every flow, changing nothing and returning `true` (which makes the tick
reset all quanta to the weights). -/
theorem wrrScheduleGo_none : ∀ (fs : List FixedLengthFlow) (cs : List Nat)
    (t : Nat) (port : Port), firstServableIdx fs cs = none →
    wrrScheduleGo t port fs cs = (true, port, fs, cs) := by
  intro fs
  induction fs with
  | nil => intro cs t port _; rfl
  | cons f fs2 ih =>
    intro cs t port hnone
    cases cs with
    | nil => rfl
    | cons c cs2 =>
      rw [firstServableIdx] at hnone
      split at hnone
      · simp at hnone
      next hcond =>
        have hrec : firstServableIdx fs2 cs2 = none := by
          rcases hr : firstServableIdx fs2 cs2 with _ | k
          · rfl
          · rw [hr] at hnone; simp at hnone
        have hskip : f.empty = true ∨ c = 0 := by
          by_cases he : f.empty
          · exact Or.inl he
          · right
            by_contra hc
            exact hcond ⟨by simpa using he, Nat.pos_of_ne_zero hc⟩
        rw [wrrScheduleGo]
        rcases hskip with he | hc
        · rw [if_pos he, ih cs2 t port hrec]
        · have hne : ¬ (f.empty = true) ∨ True := Or.inr trivial
          by_cases he : f.empty
          · rw [if_pos he, ih cs2 t port hrec]
          · rw [if_neg he, hc]
            rw [if_neg (by omega : ¬ 0 < 0), ih cs2 t port hrec]

end Sched

namespace Sched

/-- When flow `k` is the first non-empty flow with positive quantum, the WRR
scan stops there: it serves `k`'s head packet exactly when it is eligible
(decrementing the quantum and popping the head), and serves nothing at all
otherwise; in both cases the scan returns `false` (no quantum reset). -/
theorem wrrScheduleGo_some : ∀ (fs : List FixedLengthFlow) (cs : List Nat)
    (t : Nat) (port : Port) (k : Nat), firstServableIdx fs cs = some k →
    k < fs.length ∧ k < cs.length ∧
    (fs.getD k ⟨0, []⟩).empty = false ∧ 0 < cs.getD k 0 ∧
    ∃ pkt at2 rest, (fs.getD k ⟨0, []⟩).packet_states = (pkt, at2) :: rest ∧
      ((at2 ≤ t →
          wrrScheduleGo t port fs cs
            = (false, port.submit pkt,
               fs.set k ⟨(fs.getD k ⟨0, []⟩).packet_len, rest⟩,
               cs.set k (cs.getD k 0 - 1))) ∧
       (¬ at2 ≤ t → wrrScheduleGo t port fs cs = (false, port, fs, cs))) := by
  intro fs
  induction fs with
  | nil => intro cs t port k h; simp [firstServableIdx] at h
  | cons f fs2 ih =>
    intro cs t port k h
    cases cs with
    | nil => simp [firstServableIdx] at h
    | cons c cs2 =>
      rw [firstServableIdx] at h
      split at h
      next hcond =>
        simp only [Option.some.injEq] at h
        rw [← h]
        refine ⟨by simp, by simp, by simpa using hcond.1, by simpa using hcond.2, ?_⟩
        rcases hps : f.packet_states with _ | ⟨⟨pkt, at2⟩, rest⟩
        · exfalso
          have : f.empty = true := by simp [FixedLengthFlow.empty, hps]
          rw [hcond.1] at this
          cases this
        · refine ⟨pkt, at2, rest, by simpa using hps, ?_, ?_⟩
          · intro hel
            rw [wrrScheduleGo, if_neg (by simp [hcond.1]), if_pos hcond.2]
            have hpk : f.peek_packet t = some pkt := by
              unfold FixedLengthFlow.peek_packet
              rw [hps]
              simp [hel]
            rw [hpk, hps]
            rfl
          · intro hel
            rw [wrrScheduleGo, if_neg (by simp [hcond.1]), if_pos hcond.2]
            have hpk : f.peek_packet t = none := by
              unfold FixedLengthFlow.peek_packet
              rw [hps]
              simp [hel]
            rw [hpk]
      next hcond =>
        rcases hr : firstServableIdx fs2 cs2 with _ | k2
        · rw [hr] at h; simp at h
        · rw [hr] at h
          simp at h
          rcases ih cs2 t port k2 hr with
            ⟨hk2f, hk2c, hemp, hpos, pkt, at2, rest, hps, hserve, hnoserve⟩
          have hskip : f.empty = true ∨ (f.empty = false ∧ c = 0) := by
            by_cases he : f.empty
            · exact Or.inl he
            · refine Or.inr ⟨by simpa using he, ?_⟩
              by_contra hc
              exact hcond ⟨by simpa using he, Nat.pos_of_ne_zero hc⟩
          rw [← h]
          refine ⟨by simpa using hk2f, by simpa using hk2c,
                  by simpa using hemp, by simpa using hpos,
                  pkt, at2, rest, by simpa using hps, ?_, ?_⟩
          · intro hel
            have hrec := hserve hel
            rw [wrrScheduleGo]
            rcases hskip with he | ⟨he, hc⟩
            · rw [if_pos he, hrec]
              rfl
            · rw [if_neg (by simp [he]), hc, if_neg (by omega : ¬ 0 < 0), hrec]
              rfl
          · intro hel
            have hrec := hnoserve hel
            rw [wrrScheduleGo]
            rcases hskip with he | ⟨he, hc⟩
            · rw [if_pos he, hrec]
            · rw [if_neg (by simp [he]), hc, if_neg (by omega : ¬ 0 < 0), hrec]

end Sched

namespace Sched

/-- C6 amended: the WRR scan stops at the first non-empty flow with positive
remaining quantum, regardless of eligibility: that flow is served (quantum
decremented by 1, head popped and submitted) exactly when its head packet is
eligible (`arrival <= timer`), and otherwise nothing is served this tick;
later flows are never examined.  The quanta are reset to the weights only
when there is no non-empty flow with positive quantum at all — mere
ineligibility does not trigger a reset (the scan returns `false`). -/
theorem wrr_scan_first_positive_quota :
    (∀ s : WRRScheduler, firstServableIdx s.flows s.current_weight = none →
        s.schedule = (true, s.output_port, s.flows, s.current_weight)) ∧
    (∀ (s : WRRScheduler) (k : Nat),
        firstServableIdx s.flows s.current_weight = some k →
        ∃ pkt at2 rest,
          (s.flows.getD k ⟨0, []⟩).packet_states = (pkt, at2) :: rest ∧
          (at2 ≤ s.timer →
             s.schedule = (false, s.output_port.submit pkt,
               s.flows.set k ⟨(s.flows.getD k ⟨0, []⟩).packet_len, rest⟩,
               s.current_weight.set k (s.current_weight.getD k 0 - 1))) ∧
          (¬ at2 ≤ s.timer →
             s.schedule = (false, s.output_port, s.flows, s.current_weight))) := by
  constructor
  · intro s h
    unfold WRRScheduler.schedule
    exact wrrScheduleGo_none s.flows s.current_weight s.timer s.output_port h
  · intro s k h
    rcases wrrScheduleGo_some s.flows s.current_weight s.timer s.output_port k h with
      ⟨_, _, _, _, pkt, at2, rest, hps, hserve, hnoserve⟩
    exact ⟨pkt, at2, rest, hps, fun hel => hserve hel, fun hel => hnoserve hel⟩

/-- Witness for `wrr_scan_first_positive_quota`: a state where the first
positive-quantum flow's head is still in the future (nothing served, no
reset), and a state with no positive-quantum non-empty flow (scan passes,
`true` returned). -/
theorem wrr_scan_first_positive_quota_witness :
    (⟨1, [2, 1], [1, 1], [⟨1, [(⟨11, 1⟩, 5)]⟩, ⟨1, [(⟨20, 1⟩, 0)]⟩],
        Port.new 0 1⟩ : WRRScheduler).schedule
      = (false, Port.new 0 1, [⟨1, [(⟨11, 1⟩, 5)]⟩, ⟨1, [(⟨20, 1⟩, 0)]⟩], [1, 1]) ∧
    (⟨0, [1], [0], [⟨1, [(⟨9, 1⟩, 0)]⟩], Port.new 0 1⟩ : WRRScheduler).schedule
      = (true, Port.new 0 1, [⟨1, [(⟨9, 1⟩, 0)]⟩], [0]) := by
  constructor
  · obtain ⟨pkt, at2, rest, hps, hserve, hnoserve⟩ :=
      wrr_scan_first_positive_quota.2
        (⟨1, [2, 1], [1, 1], [⟨1, [(⟨11, 1⟩, 5)]⟩, ⟨1, [(⟨20, 1⟩, 0)]⟩],
          Port.new 0 1⟩ : WRRScheduler) 0 (by decide)
    have hps2 : ((pkt, at2) :: rest : List (Packet × Nat)) = [(⟨11, 1⟩, 5)] := by
      rw [← hps]
      rfl
    rw [List.cons.injEq, Prod.mk.injEq] at hps2
    have h := hnoserve (by rw [hps2.1.2]; decide)
    exact h.trans (by decide)
  · have h := wrr_scan_first_positive_quota.1
      (⟨0, [1], [0], [⟨1, [(⟨9, 1⟩, 0)]⟩], Port.new 0 1⟩ : WRRScheduler) (by decide)
    exact h.trans (by decide)

end Sched

theorem getD_set_ne {β : Type u} {i j : Nat} (hne : i ≠ j) (l : List β) (a d : β) :
    (l.set i a).getD j d = l.getD j d := by
  rw [List.getD_eq_getElem?_getD, List.getD_eq_getElem?_getD,
      List.getElem?_set_ne hne]

theorem getD_set_self {β : Type u} {i : Nat} (l : List β) (a d : β)
    (hi : i < l.length) : (l.set i a).getD i d = a := by
  rw [List.getD_eq_getElem?_getD, List.getElem?_set_self (by simpa using hi)]
  rfl

namespace Sched

/-- The triple returned by `WRRScheduler::schedule` keeps the per-flow
decomposition of the conservation invariant. -/
theorem WRRScheduler.wrr_schedule_inv {init : List (List Packet)} {s : WRRScheduler}
    (hd : namesDisjointB (init.map namesOf) = true) (hinv : WRRInv init s) :
    (s.schedule).2.2.1.length = init.length ∧
    (s.schedule).2.2.2.length = init.length ∧
    ∀ k, k < init.length →
      ofNames (namesOf (init.getD k []))
          ((s.schedule).2.1.out_queue ++ (s.schedule).2.1.in_queue)
        ++ ((s.schedule).2.2.1.getD k ⟨0, []⟩).queue = init.getD k [] := by
  rcases hinv with ⟨hf, hw, hc, hrel⟩
  rcases hfs : firstServableIdx s.flows s.current_weight with _ | k
  · have hgo := wrrScheduleGo_none s.flows s.current_weight s.timer s.output_port hfs
    unfold WRRScheduler.schedule
    rw [hgo]
    exact ⟨hf, hc, hrel⟩
  · rcases wrrScheduleGo_some s.flows s.current_weight s.timer s.output_port k hfs with
      ⟨hkf, hkc, hemp, hpos, pkt, at2, rest, hps, hserve, hnoserve⟩
    by_cases hel : at2 ≤ s.timer
    · have hgo := hserve hel
      unfold WRRScheduler.schedule
      rw [hgo]
      have hkinit : k < init.length := by rw [← hf]; exact hkf
      have hqk : (s.flows.getD k ⟨0, []⟩).queue
          = pkt :: rest.map (fun a => a.1) := by
        unfold FixedLengthFlow.queue
        rw [hps]
        rfl
      have hpktmem : pkt ∈ init.getD k [] := by
        have := hrel k hkinit
        rw [← this]
        refine List.mem_append.mpr (Or.inr ?_)
        rw [hqk]
        exact List.mem_cons_self _ _
      have hname : pkt.name ∈ namesOf (init.getD k []) :=
        List.mem_map.mpr ⟨pkt, hpktmem, rfl⟩
      refine ⟨by simpa using hf, by simpa using hc, ?_⟩
      intro m hm
      rw [Port.submit_outin, ofNames_append]
      by_cases hmk : m = k
      · subst hmk
        rw [ofNames_singleton_mem hname,
            getD_set_self s.flows _ _ hkf]
        have hq2 : (⟨(s.flows.getD m ⟨0, []⟩).packet_len, rest⟩ : FixedLengthFlow).queue
            = rest.map (fun a => a.1) := rfl
        rw [hq2, List.append_assoc]
        have hq3 : ([pkt] ++ rest.map (fun a => a.1) : List Packet)
            = (s.flows.getD m ⟨0, []⟩).queue := by
          rw [hqk]
          rfl
        rw [hq3]
        exact hrel m hm
      · have hnotin : pkt.name ∉ namesOf (init.getD m []) := by
          have hspec := namesDisjointB_spec hd k m (fun hkm => hmk hkm.symm) pkt.name
          rw [DRRSim.getD_map_of_lt namesOf init k hkinit [] [],
              DRRSim.getD_map_of_lt namesOf init m hm [] []] at hspec
          exact hspec hname
        rw [ofNames_singleton_not_mem hnotin, List.append_nil,
            getD_set_ne (fun hkm => hmk hkm.symm) s.flows _ _]
        exact hrel m hm
    · have hgo := hnoserve hel
      unfold WRRScheduler.schedule
      rw [hgo]
      exact ⟨hf, hc, hrel⟩

/-- One `WRRScheduler::tick` preserves the conservation invariant (whatever
the step outcome). -/
theorem WRRScheduler.wrr_tick_inv {init : List (List Packet)} {s : WRRScheduler}
    (hd : namesDisjointB (init.map namesOf) = true) (hinv : WRRInv init s)
    {st : WrrStep} (ht : s.tick = st) : WRRInv init st.state := by
  rcases hsch : s.schedule with ⟨b, port2, flows2, cw2⟩
  have hs := WRRScheduler.wrr_schedule_inv hd hinv
  rw [hsch] at hs
  simp only [WRRScheduler.tick] at ht
  split at ht
  next hall =>
    rw [← ht]
    exact hinv
  next =>
    rw [hsch] at ht
    have hstate : st.state
        = ⟨s.timer + 1, s.weights, if b then s.weights else cw2, flows2, port2.tick⟩ := by
      dsimp only at ht
      split at ht <;> rw [← ht] <;> rfl
    rw [hstate]
    refine ⟨hs.1, hinv.2.1, ?_, ?_⟩
    · dsimp only
      split
      · exact hinv.2.1
      · exact hs.2.1
    · intro k hk
      dsimp only
      rw [Port.tick_outin]
      exact hs.2.2 k hk

/-- A finished WRR run preserves the conservation invariant into the final,
flushed state. -/
theorem WRRScheduler.wrr_run_inv {init : List (List Packet)} {fuel : Nat}
    {s s2 : WRRScheduler} (hd : namesDisjointB (init.map namesOf) = true)
    (hinv : WRRInv init s) (h : WRRScheduler.run fuel s = .finished s2) :
    WRRInv init s2 := by
  induction fuel generalizing s with
  | zero => simp [WRRScheduler.run] at h
  | succ n ih =>
    unfold WRRScheduler.run at h
    rcases ht : s.tick with s3 | s3 | s3 <;> rw [ht] at h
    · rw [WrrRun.finished.injEq] at h
      have h3 : WRRInv init s3 := by
        have := WRRScheduler.wrr_tick_inv hd hinv ht
        exact this
      rw [← h]
      refine ⟨h3.1, h3.2.1, h3.2.2.1, ?_⟩
      intro k hk
      dsimp only
      rw [Port.proceed_rest_outin]
      exact h3.2.2.2 k hk
    · have h3 : WRRInv init s3 := WRRScheduler.wrr_tick_inv hd hinv ht
      exact ih h3 h
    · simp at h

/-- The initial conservation invariant of a freshly built WRR scheduler. -/
theorem mkWRR_inv (bandwidth : Nat) (l : List (FixedLengthFlow × Nat)) :
    WRRInv (l.map (fun e => e.1.queue)) (mkWRR bandwidth l) := by
  rw [mkWRR_eq]
  refine ⟨by simp, by simp, by simp, ?_⟩
  intro k hk
  simp only [List.length_map] at hk
  have h1 : ((l.map (fun (e : FixedLengthFlow × Nat) => e.1)).getD k
        (⟨0, []⟩ : FixedLengthFlow)).queue
      = (l.map (fun (e : FixedLengthFlow × Nat) => e.1.queue)).getD k
          ([] : List Packet) := by
    rw [DRRSim.getD_map_of_lt (fun (e : FixedLengthFlow × Nat) => e.1) l k hk
          (⟨0, []⟩ : FixedLengthFlow) ((⟨0, []⟩ : FixedLengthFlow), 0),
        DRRSim.getD_map_of_lt (fun (e : FixedLengthFlow × Nat) => e.1.queue) l k hk
          ([] : List Packet) ((⟨0, []⟩ : FixedLengthFlow), 0)]
  simpa [Port.new, ofNames] using h1

/-- End-to-end conservation and order for WRR: in a finished run from a
freshly built scheduler with globally distinct packet names, the sublist of
the final out queue carrying flow `k`'s names is exactly flow `k`'s initial
queue, in order. -/
theorem wrr_run_hist {bandwidth : Nat} {l : List (FixedLengthFlow × Nat)}
    {fuel : Nat} {s2 : WRRScheduler}
    (hdisj : namesDisjointB ((l.map (fun e => e.1.queue)).map namesOf) = true)
    (h : WRRScheduler.run fuel (mkWRR bandwidth l) = .finished s2) :
    ∀ k, k < l.length →
      ofNames (namesOf ((l.getD k (⟨0, []⟩, 0)).1.queue)) s2.output_port.out_queue
        = (l.getD k (⟨0, []⟩, 0)).1.queue := by
  intro k hk
  have hinv := WRRScheduler.wrr_run_inv hdisj (mkWRR_inv bandwidth l) h
  have hdr := WRRScheduler.wrr_run_drains h
  rcases hinv with ⟨hf, _, _, hrel⟩
  have hrelk := hrel k (by simpa using hk)
  have hemp : (s2.flows.getD k ⟨0, []⟩).queue = [] := by
    have hklen : k < s2.flows.length := by rw [hf]; simpa using hk
    have hmem : s2.flows.getD k ⟨0, []⟩ ∈ s2.flows := by
      rw [List.getD_eq_getElem?_getD, List.getElem?_eq_getElem hklen]
      exact List.getElem_mem hklen
    have := List.all_eq_true.mp hdr.1 _ hmem
    simp only [FixedLengthFlow.empty, List.isEmpty_iff] at this
    unfold FixedLengthFlow.queue
    rw [this]
    rfl
  rw [hemp, List.append_nil, hdr.2, List.append_nil] at hrelk
  rw [DRRSim.getD_map_of_lt (fun e => e.1.queue) l k hk [] (⟨0, []⟩, 0)] at hrelk
  exact hrelk

end Sched

namespace Sched

/-- One `WFQScheduler::tick` preserves the conservation invariant, whatever
flow the estimate comparison (and random tie-break) selects. -/
theorem WFQScheduler.wfq_tick_inv {init : List (List Packet)} {s : WFQScheduler}
    (hd : namesDisjointB (init.map namesOf) = true) (hinv : WFQInv init s)
    {coins : Nat → Bool} {cidx : Nat} {b : Bool} {s2 : WFQScheduler} {cidx2 : Nat}
    (ht : s.tick coins cidx = (b, s2, cidx2)) : WFQInv init s2 := by
  rcases hinv with ⟨hf, hrel⟩
  simp only [WFQScheduler.tick] at ht
  split at ht
  · rw [Prod.mk.injEq, Prod.mk.injEq] at ht
    rw [← ht.2.1]
    exact ⟨hf, hrel⟩
  · split at ht
    next idx cidx3 hsch =>
      split at ht
      next packet at2 rest hps =>
        rw [Prod.mk.injEq, Prod.mk.injEq] at ht
        rw [← ht.2.1]
        have hidx : idx < s.flows.length := by
          by_contra hc
          rw [List.getD_eq_default _ _ (Nat.le_of_not_lt hc)] at hps
          cases hps
        have hkinit : idx < init.length := by rw [← hf]; exact hidx
        have hqk : (s.flows.getD idx ⟨[]⟩).queue
            = packet :: rest.map (fun a => a.1) := by
          unfold VariableLengthFlow.queue
          rw [hps]
          rfl
        have hpktmem : packet ∈ init.getD idx [] := by
          have := hrel idx hkinit
          rw [← this]
          refine List.mem_append.mpr (Or.inr ?_)
          rw [hqk]
          exact List.mem_cons_self _ _
        have hname : packet.name ∈ namesOf (init.getD idx []) :=
          List.mem_map.mpr ⟨packet, hpktmem, rfl⟩
        refine ⟨by simpa using hf, ?_⟩
        intro m hm
        dsimp only
        rw [Port.tick_outin, Port.submit_outin, ofNames_append]
        by_cases hmk : m = idx
        · subst hmk
          rw [ofNames_singleton_mem hname, getD_set_self s.flows _ _ hidx]
          have hq2 : (⟨rest⟩ : VariableLengthFlow).queue = rest.map (fun a => a.1) := rfl
          rw [hq2, List.append_assoc]
          have hq3 : ([packet] ++ rest.map (fun a => a.1) : List Packet)
              = (s.flows.getD m ⟨[]⟩).queue := by
            rw [hqk]
            rfl
          rw [hq3]
          exact hrel m hm
        · have hnotin : packet.name ∉ namesOf (init.getD m []) := by
            have hspec := namesDisjointB_spec hd idx m (fun hkm => hmk hkm.symm) packet.name
            rw [DRRSim.getD_map_of_lt namesOf init idx hkinit [] [],
                DRRSim.getD_map_of_lt namesOf init m hm [] []] at hspec
            exact hspec hname
          rw [ofNames_singleton_not_mem hnotin, List.append_nil,
              getD_set_ne (fun hkm => hmk hkm.symm) s.flows _ _]
          exact hrel m hm
      next hps =>
        rw [Prod.mk.injEq, Prod.mk.injEq] at ht
        rw [← ht.2.1]
        refine ⟨hf, ?_⟩
        intro m hm
        dsimp only
        rw [Port.tick_outin]
        exact hrel m hm
    next cidx3 hsch =>
      rw [Prod.mk.injEq, Prod.mk.injEq] at ht
      rw [← ht.2.1]
      refine ⟨hf, ?_⟩
      intro m hm
      dsimp only
      rw [Port.tick_outin]
      exact hrel m hm

/-- A terminating WFQ run preserves the conservation invariant into the
final, flushed state. -/
theorem WFQScheduler.wfq_run_inv {init : List (List Packet)} {fuel : Nat}
    {coins : Nat → Bool} {cidx : Nat} {s : WFQScheduler} {r : WFQScheduler × Nat}
    (hd : namesDisjointB (init.map namesOf) = true) (hinv : WFQInv init s)
    (h : WFQScheduler.run fuel coins cidx s = some r) : WFQInv init r.1 := by
  induction fuel generalizing s cidx with
  | zero => simp [WFQScheduler.run] at h
  | succ n ih =>
    unfold WFQScheduler.run at h
    rcases ht : s.tick coins cidx with ⟨b, s3, cidx3⟩
    rw [ht] at h
    have h3 : WFQInv init s3 := WFQScheduler.wfq_tick_inv hd hinv ht
    cases b with
    | true => exact ih h3 h
    | false =>
      simp only [Option.some.injEq] at h
      rw [← h]
      refine ⟨h3.1, ?_⟩
      intro k hk
      dsimp only
      rw [Port.proceed_rest_outin]
      exact h3.2 k hk

/-- The initial conservation invariant of a freshly built WFQ scheduler. -/
theorem mkWFQ_inv (bandwidth : Nat) (l : List (VariableLengthFlow × ℚ)) :
    WFQInv (l.map (fun e => e.1.queue)) (mkWFQ bandwidth l) := by
  rw [mkWFQ_eq]
  refine ⟨by simp, ?_⟩
  intro k hk
  simp only [List.length_map] at hk
  have h1 : ((l.map (fun (e : VariableLengthFlow × ℚ) => e.1)).getD k
        (⟨[]⟩ : VariableLengthFlow)).queue
      = (l.map (fun (e : VariableLengthFlow × ℚ) => e.1.queue)).getD k
          ([] : List Packet) := by
    rw [DRRSim.getD_map_of_lt (fun (e : VariableLengthFlow × ℚ) => e.1) l k hk
          (⟨[]⟩ : VariableLengthFlow) ((⟨[]⟩ : VariableLengthFlow), 0),
        DRRSim.getD_map_of_lt (fun (e : VariableLengthFlow × ℚ) => e.1.queue) l k hk
          ([] : List Packet) ((⟨[]⟩ : VariableLengthFlow), 0)]
  simpa [Port.new, ofNames] using h1

/-- End-to-end conservation and order for WFQ: in a terminating run from a
freshly built scheduler with globally distinct packet names — under any
stream of random tie-break draws — the sublist of the final out queue
carrying flow `k`'s names is exactly flow `k`'s initial queue, in order. -/
theorem wfq_run_hist {bandwidth : Nat} {l : List (VariableLengthFlow × ℚ)}
    {fuel : Nat} {coins : Nat → Bool} {cidx : Nat} {r : WFQScheduler × Nat}
    (hdisj : namesDisjointB ((l.map (fun e => e.1.queue)).map namesOf) = true)
    (h : WFQScheduler.run fuel coins cidx (mkWFQ bandwidth l) = some r) :
    ∀ k, k < l.length →
      ofNames (namesOf ((l.getD k (⟨[]⟩, 0)).1.queue)) r.1.output_port.out_queue
        = (l.getD k (⟨[]⟩, 0)).1.queue := by
  intro k hk
  have hinv := WFQScheduler.wfq_run_inv hdisj (mkWFQ_inv bandwidth l) h
  have hdr := WFQScheduler.wfq_run_drains h
  rcases hinv with ⟨hf, hrel⟩
  have hrelk := hrel k (by simpa using hk)
  have hemp : (r.1.flows.getD k ⟨[]⟩).queue = [] := by
    have hklen : k < r.1.flows.length := by rw [hf]; simpa using hk
    have hmem : r.1.flows.getD k ⟨[]⟩ ∈ r.1.flows := by
      rw [List.getD_eq_getElem?_getD, List.getElem?_eq_getElem hklen]
      exact List.getElem_mem hklen
    have := List.all_eq_true.mp hdr.1 _ hmem
    simp only [VariableLengthFlow.empty, List.isEmpty_iff] at this
    unfold VariableLengthFlow.queue
    rw [this]
    rfl
  rw [hemp, List.append_nil, hdr.2, List.append_nil] at hrelk
  rw [DRRSim.getD_map_of_lt (fun (e : VariableLengthFlow × ℚ) => e.1.queue) l k hk
        ([] : List Packet) ((⟨[]⟩ : VariableLengthFlow), 0)] at hrelk
  exact hrelk

end Sched

namespace Sched

theorem WFQScheduler.run_next {s s2 : WFQScheduler} {coins : Nat → Bool}
    {cidx cidx2 n : Nat} (h : s.tick coins cidx = (true, s2, cidx2)) :
    WFQScheduler.run (n + 1) coins cidx s = WFQScheduler.run n coins cidx2 s2 := by
  conv_lhs => rw [WFQScheduler.run]
  rw [h]

theorem WFQScheduler.run_last {s s2 : WFQScheduler} {coins : Nat → Bool}
    {cidx cidx2 n : Nat} (h : s.tick coins cidx = (false, s2, cidx2)) :
    WFQScheduler.run (n + 1) coins cidx s
      = some ({ s2 with output_port := s2.output_port.proceed_rest }, cidx2) := by
  conv_lhs => rw [WFQScheduler.run]
  rw [h]

/-- C4 counterexample: on two equal-weight WFQ flows with one unit packet
each, the finish-time estimates tie every tick, so the unseeded random draw
decides the winner: the all-`false` draw stream departs packet 0 before
packet 1, the all-`true` stream departs packet 1 before packet 0 — two
executions of the same input with different draws produce different
departure histories. -/
theorem wfq_tie_break_nondeterministic :
    (WFQScheduler.run 6 coinsF 0 c4WFQ).map (fun r => r.1.output_port.out_queue)
      = some [⟨0, 1⟩, ⟨1, 1⟩] ∧
    (WFQScheduler.run 6 coinsT 0 c4WFQ).map (fun r => r.1.output_port.out_queue)
      = some [⟨1, 1⟩, ⟨0, 1⟩] ∧
    ([(⟨0, 1⟩ : Packet), ⟨1, 1⟩] = [(⟨1, 1⟩ : Packet), ⟨0, 1⟩] → False) := by
  have t1F : c4WFQ.tick coinsF 0
      = (true, ⟨1, [1, 1], 2, [⟨[]⟩, ⟨[(⟨1, 1⟩, 0)]⟩], ⟨0, 1, [], [⟨0, 1⟩], 0⟩⟩, 1) := by
    norm_num [WFQScheduler.tick, WFQScheduler.schedule, wfqScheduleGo,
      WFQScheduler.estimate_time, c4WFQ, mkWFQ, WFQScheduler.addAll,
      WFQScheduler.add_flow, WFQScheduler.new, VariableLengthFlow.packet_arrive,
      VariableLengthFlow.peek_packet, VariableLengthFlow.empty, VariableLengthFlow.new,
      sortByKey, insertByKey, Port.new, Port.submit, Port.tick, coinsF, List.enum,
      List.getD_cons_zero, List.getD_cons_succ, List.getElem?_cons_succ,
      List.getElem?_cons_zero, List.getElem_cons_succ, List.getElem_cons_zero,
      Option.getD_some, List.set_cons_succ, List.set_cons_zero]
  have t2F : (⟨1, [1, 1], 2, [⟨[]⟩, ⟨[(⟨1, 1⟩, 0)]⟩], ⟨0, 1, [], [⟨0, 1⟩], 0⟩⟩ :
        WFQScheduler).tick coinsF 1
      = (true, ⟨2, [1, 1], 2, [⟨[]⟩, ⟨[]⟩], ⟨0, 1, [], [⟨0, 1⟩, ⟨1, 1⟩], 0⟩⟩, 1) := by
    rfl
  have t3F : (⟨2, [1, 1], 2, [⟨[]⟩, ⟨[]⟩], ⟨0, 1, [], [⟨0, 1⟩, ⟨1, 1⟩], 0⟩⟩ :
        WFQScheduler).tick coinsF 1
      = (false, ⟨2, [1, 1], 2, [⟨[]⟩, ⟨[]⟩], ⟨0, 1, [], [⟨0, 1⟩, ⟨1, 1⟩], 0⟩⟩, 1) := by
    rfl
  have t1T : c4WFQ.tick coinsT 0
      = (true, ⟨1, [1, 1], 2, [⟨[(⟨0, 1⟩, 0)]⟩, ⟨[]⟩], ⟨0, 1, [], [⟨1, 1⟩], 0⟩⟩, 1) := by
    norm_num [WFQScheduler.tick, WFQScheduler.schedule, wfqScheduleGo,
      WFQScheduler.estimate_time, c4WFQ, mkWFQ, WFQScheduler.addAll,
      WFQScheduler.add_flow, WFQScheduler.new, VariableLengthFlow.packet_arrive,
      VariableLengthFlow.peek_packet, VariableLengthFlow.empty, VariableLengthFlow.new,
      sortByKey, insertByKey, Port.new, Port.submit, Port.tick, coinsT, List.enum,
      List.getD_cons_zero, List.getD_cons_succ, List.getElem?_cons_succ,
      List.getElem?_cons_zero, List.getElem_cons_succ, List.getElem_cons_zero,
      Option.getD_some, List.set_cons_succ, List.set_cons_zero]
    rfl
  have t2T : (⟨1, [1, 1], 2, [⟨[(⟨0, 1⟩, 0)]⟩, ⟨[]⟩], ⟨0, 1, [], [⟨1, 1⟩], 0⟩⟩ :
        WFQScheduler).tick coinsT 1
      = (true, ⟨2, [1, 1], 2, [⟨[]⟩, ⟨[]⟩], ⟨0, 1, [], [⟨1, 1⟩, ⟨0, 1⟩], 0⟩⟩, 1) := by
    rfl
  have t3T : (⟨2, [1, 1], 2, [⟨[]⟩, ⟨[]⟩], ⟨0, 1, [], [⟨1, 1⟩, ⟨0, 1⟩], 0⟩⟩ :
        WFQScheduler).tick coinsT 1
      = (false, ⟨2, [1, 1], 2, [⟨[]⟩, ⟨[]⟩], ⟨0, 1, [], [⟨1, 1⟩, ⟨0, 1⟩], 0⟩⟩, 1) := by
    rfl
  refine ⟨?_, ?_, by decide⟩
  · rw [show (6 : Nat) = 5 + 1 from rfl, WFQScheduler.run_next t1F,
        show (5 : Nat) = 4 + 1 from rfl, WFQScheduler.run_next t2F,
        show (4 : Nat) = 3 + 1 from rfl, WFQScheduler.run_last t3F]
    simp [Port.proceed_rest]
  · rw [show (6 : Nat) = 5 + 1 from rfl, WFQScheduler.run_next t1T,
        show (5 : Nat) = 4 + 1 from rfl, WFQScheduler.run_next t2T,
        show (4 : Nat) = 3 + 1 from rfl, WFQScheduler.run_last t3T]
    simp [Port.proceed_rest]

/-- C4 amended: a WFQ execution is a function of the input together with the
stream of random tie-break draws; when the finish-time estimates never tie —
as in `noTieWFQ`, weights 2 and 1 — the draws are never consulted and any two
executions produce identical results. -/
theorem wfq_no_tie_deterministic :
    ∀ c1 c2 : Nat → Bool,
      WFQScheduler.run 6 c1 0 noTieWFQ = WFQScheduler.run 6 c2 0 noTieWFQ := by
  have t1 : ∀ c : Nat → Bool, noTieWFQ.tick c 0
      = (true, ⟨1, [2, 1], 3, [⟨[]⟩, ⟨[(⟨1, 1⟩, 0)]⟩], ⟨0, 1, [], [⟨0, 1⟩], 0⟩⟩, 0) := by
    intro c
    norm_num [WFQScheduler.tick, WFQScheduler.schedule, wfqScheduleGo,
      WFQScheduler.estimate_time, noTieWFQ, mkWFQ, WFQScheduler.addAll,
      WFQScheduler.add_flow, WFQScheduler.new, VariableLengthFlow.packet_arrive,
      VariableLengthFlow.peek_packet, VariableLengthFlow.empty, VariableLengthFlow.new,
      sortByKey, insertByKey, Port.new, Port.submit, Port.tick, List.enum,
      List.getD_cons_zero, List.getD_cons_succ, List.getElem?_cons_succ,
      List.getElem?_cons_zero, List.getElem_cons_succ, List.getElem_cons_zero,
      Option.getD_some, List.set_cons_succ, List.set_cons_zero]
  have t2 : ∀ c : Nat → Bool,
      (⟨1, [2, 1], 3, [⟨[]⟩, ⟨[(⟨1, 1⟩, 0)]⟩], ⟨0, 1, [], [⟨0, 1⟩], 0⟩⟩ :
        WFQScheduler).tick c 0
      = (true, ⟨2, [2, 1], 3, [⟨[]⟩, ⟨[]⟩], ⟨0, 1, [], [⟨0, 1⟩, ⟨1, 1⟩], 0⟩⟩, 0) := by
    intro c
    rfl
  have t3 : ∀ c : Nat → Bool,
      (⟨2, [2, 1], 3, [⟨[]⟩, ⟨[]⟩], ⟨0, 1, [], [⟨0, 1⟩, ⟨1, 1⟩], 0⟩⟩ :
        WFQScheduler).tick c 0
      = (false, ⟨2, [2, 1], 3, [⟨[]⟩, ⟨[]⟩], ⟨0, 1, [], [⟨0, 1⟩, ⟨1, 1⟩], 0⟩⟩, 0) := by
    intro c
    rfl
  intro c1 c2
  rw [show (6 : Nat) = 5 + 1 from rfl, WFQScheduler.run_next (t1 c1),
      WFQScheduler.run_next (t1 c2),
      show (5 : Nat) = 4 + 1 from rfl, WFQScheduler.run_next (t2 c1),
      WFQScheduler.run_next (t2 c2),
      show (4 : Nat) = 3 + 1 from rfl, WFQScheduler.run_last (t3 c1),
      WFQScheduler.run_last (t3 c2)]
end Sched

/-- C2: conservation.  For every terminating run: in DRR the multiset of
packet indices recorded for each flow equals the multiset of indices it was
pre-loaded with; in WRR and WFQ (under any random draws), with globally
distinct packet names, the multiset of each flow's packets in the final out
queue equals the multiset it was pre-loaded with — no packet duplicated or
dropped.  (The proofs establish the stronger list equalities.) -/
theorem sched_conservation_multiset :
    (∀ (capacity : Nat) (l : List (DRRSim.Flow × Nat)) (fuel : Nat)
        (s2 : DRRSim.DRRScheduler),
        DRRSim.DRRScheduler.run fuel (DRRSim.mkDRR capacity l) = some s2 →
        ∀ k, k < l.length →
          (↑(DRRSim.histFor k s2.output_link.history) : Multiset Nat)
            = ↑(DRRSim.indicesOf (l.getD k (⟨[]⟩, 0)).1)) ∧
    (∀ (bandwidth : Nat) (l : List (Sched.FixedLengthFlow × Nat)) (fuel : Nat)
        (s2 : Sched.WRRScheduler),
        Sched.namesDisjointB ((l.map (fun e => e.1.queue)).map Sched.namesOf) = true →
        Sched.WRRScheduler.run fuel (Sched.mkWRR bandwidth l) = .finished s2 →
        ∀ k, k < l.length →
          (↑(Sched.ofNames (Sched.namesOf (l.getD k (⟨0, []⟩, 0)).1.queue)
              s2.output_port.out_queue) : Multiset Sched.Packet)
            = ↑((l.getD k (⟨0, []⟩, 0)).1.queue)) ∧
    (∀ (bandwidth : Nat) (l : List (Sched.VariableLengthFlow × ℚ)) (fuel : Nat)
        (coins : Nat → Bool) (cidx : Nat) (r : Sched.WFQScheduler × Nat),
        Sched.namesDisjointB ((l.map (fun e => e.1.queue)).map Sched.namesOf) = true →
        Sched.WFQScheduler.run fuel coins cidx (Sched.mkWFQ bandwidth l) = some r →
        ∀ k, k < l.length →
          (↑(Sched.ofNames (Sched.namesOf (l.getD k (⟨[]⟩, 0)).1.queue)
              r.1.output_port.out_queue) : Multiset Sched.Packet)
            = ↑((l.getD k (⟨[]⟩, 0)).1.queue)) := by
  refine ⟨fun cap l fuel s2 h k hk => ?_, fun bw l fuel s2 hd h k hk => ?_,
          fun bw l fuel coins cidx r hd h k hk => ?_⟩
  · exact congrArg (fun x : List Nat => (↑x : Multiset Nat)) (DRRSim.drr_run_hist h k hk)
  · exact congrArg (fun x : List Sched.Packet => (↑x : Multiset Sched.Packet))
      (Sched.wrr_run_hist hd h k hk)
  · exact congrArg (fun x : List Sched.Packet => (↑x : Multiset Sched.Packet))
      (Sched.wfq_run_hist hd h k hk)

/-- Witness for `sched_conservation_multiset` on concrete terminating runs of
all three schedulers (one flow with one or two packets each). -/
theorem sched_conservation_multiset_witness :
    ((↑(DRRSim.histFor 0 ((⟨1, [⟨[]⟩], [1], [1], ⟨1, 1, [(0, 0)]⟩⟩ :
          DRRSim.DRRScheduler).output_link.history)) : Multiset Nat)
        = ↑(DRRSim.indicesOf (([((DRRSim.Flow.new.add_packet ⟨0, 1, 0⟩), 1)].getD 0
            (⟨[]⟩, 0)).1))) ∧
    ((↑(Sched.ofNames (Sched.namesOf (([((⟨1, [(⟨9, 1⟩, 0)]⟩ : Sched.FixedLengthFlow), 1)].getD 0
            (⟨0, []⟩, 0)).1.queue))
        ((⟨1, [1], [0], [⟨1, []⟩], ⟨0, 1, [], [⟨9, 1⟩], 0⟩⟩ :
          Sched.WRRScheduler).output_port.out_queue)) : Multiset Sched.Packet)
        = ↑(([((⟨1, [(⟨9, 1⟩, 0)]⟩ : Sched.FixedLengthFlow), 1)].getD 0
            (⟨0, []⟩, 0)).1.queue)) ∧
    ((↑(Sched.ofNames (Sched.namesOf (([((⟨[(⟨5, 1⟩, 0), (⟨6, 1⟩, 0)]⟩ :
              Sched.VariableLengthFlow), (1 : ℚ))].getD 0 (⟨[]⟩, 0)).1.queue))
        ((⟨2, [(1 : ℚ)], 0 + 1, [⟨[]⟩], ⟨0, 1, [], [⟨5, 1⟩, ⟨6, 1⟩], 0⟩⟩ :
          Sched.WFQScheduler).output_port.out_queue)) : Multiset Sched.Packet)
        = ↑(([((⟨[(⟨5, 1⟩, 0), (⟨6, 1⟩, 0)]⟩ :
              Sched.VariableLengthFlow), (1 : ℚ))].getD 0 (⟨[]⟩, 0)).1.queue)) :=
  ⟨sched_conservation_multiset.1 1 [((DRRSim.Flow.new.add_packet ⟨0, 1, 0⟩), 1)] 5
      _ (by decide) 0 (by decide),
   sched_conservation_multiset.2.1 1 [((⟨1, [(⟨9, 1⟩, 0)]⟩ : Sched.FixedLengthFlow), 1)] 5
      _ (by decide) (by decide) 0 (by decide),
   sched_conservation_multiset.2.2 1 [((⟨[(⟨5, 1⟩, 0), (⟨6, 1⟩, 0)]⟩ :
        Sched.VariableLengthFlow), (1 : ℚ))] 4 coinsF 0
      ((⟨2, [(1 : ℚ)], 0 + 1, [⟨[]⟩], ⟨0, 1, [], [⟨5, 1⟩, ⟨6, 1⟩], 0⟩⟩ :
        Sched.WFQScheduler), 0) (by decide) rfl 0 (by decide)⟩

/-- C8: per-flow FIFO.  Adding a packet keeps a flow's queue sorted by
arrival time, with the new packet placed after every queued packet whose
arrival time is less than or equal to its own (stable: ties keep insertion
order); and in every terminating run of each scheduler the per-flow
departure sequence is exactly the flow's initial queue in queue order, so no
packet is overtaken by a later-arriving packet of the same flow. -/
theorem sched_per_flow_fifo :
    (∀ (f : DRRSim.Flow) (p : DRRSim.Packet),
        ((f.add_packet p).packets).Sorted
          (fun x y => x.arrival_time ≤ y.arrival_time)) ∧
    (∀ (f : DRRSim.Flow) (p : DRRSim.Packet),
        f.packets.Sorted (fun x y => x.arrival_time ≤ y.arrival_time) →
        (f.add_packet p).packets
          = f.packets.takeWhile (fun q => q.arrival_time ≤ p.arrival_time)
            ++ p :: f.packets.dropWhile (fun q => q.arrival_time ≤ p.arrival_time)) ∧
    (∀ (f : Sched.VariableLengthFlow) (p : Sched.Packet) (t : Nat),
        ((f.packet_arrive p t).packet_states).Sorted (fun x y => x.2 ≤ y.2)) ∧
    (∀ (f : Sched.VariableLengthFlow) (p : Sched.Packet) (t : Nat),
        f.packet_states.Sorted (fun x y => x.2 ≤ y.2) →
        (f.packet_arrive p t).packet_states
          = f.packet_states.takeWhile (fun q => q.2 ≤ t)
            ++ (p, t) :: f.packet_states.dropWhile (fun q => q.2 ≤ t)) ∧
    (∀ (capacity : Nat) (l : List (DRRSim.Flow × Nat)) (fuel : Nat)
        (s2 : DRRSim.DRRScheduler),
        DRRSim.DRRScheduler.run fuel (DRRSim.mkDRR capacity l) = some s2 →
        ∀ k, k < l.length →
          DRRSim.histFor k s2.output_link.history
            = DRRSim.indicesOf (l.getD k (⟨[]⟩, 0)).1) ∧
    (∀ (bandwidth : Nat) (l : List (Sched.FixedLengthFlow × Nat)) (fuel : Nat)
        (s2 : Sched.WRRScheduler),
        Sched.namesDisjointB ((l.map (fun e => e.1.queue)).map Sched.namesOf) = true →
        Sched.WRRScheduler.run fuel (Sched.mkWRR bandwidth l) = .finished s2 →
        ∀ k, k < l.length →
          Sched.ofNames (Sched.namesOf (l.getD k (⟨0, []⟩, 0)).1.queue)
              s2.output_port.out_queue
            = (l.getD k (⟨0, []⟩, 0)).1.queue) ∧
    (∀ (bandwidth : Nat) (l : List (Sched.VariableLengthFlow × ℚ)) (fuel : Nat)
        (coins : Nat → Bool) (cidx : Nat) (r : Sched.WFQScheduler × Nat),
        Sched.namesDisjointB ((l.map (fun e => e.1.queue)).map Sched.namesOf) = true →
        Sched.WFQScheduler.run fuel coins cidx (Sched.mkWFQ bandwidth l) = some r →
        ∀ k, k < l.length →
          Sched.ofNames (Sched.namesOf (l.getD k (⟨[]⟩, 0)).1.queue)
              r.1.output_port.out_queue
            = (l.getD k (⟨[]⟩, 0)).1.queue) := by
  refine ⟨fun f p => ?_, fun f p h => ?_, fun f p t => ?_, fun f p t h => ?_,
          fun cap l fuel s2 h k hk => DRRSim.drr_run_hist h k hk,
          fun bw l fuel s2 hd h k hk => Sched.wrr_run_hist hd h k hk,
          fun bw l fuel coins cidx r hd h k hk => Sched.wfq_run_hist hd h k hk⟩
  · exact sorted_sortByKey (fun q => q.arrival_time) (f.packets ++ [p])
  · exact sortByKey_sorted_append (fun q => q.arrival_time) h p
  · exact sorted_sortByKey (fun a => a.2) (f.packet_states ++ [(p, t)])
  · exact sortByKey_sorted_append (fun a => a.2) h (p, t)

/-- Witness for `sched_per_flow_fifo`: stable insertion into a concrete
sorted queue (the tie at arrival time 3 keeps the old packet first), and the
departure order of concrete terminating runs of the three schedulers. -/
theorem sched_per_flow_fifo_witness :
    ((⟨[⟨0, 5, 1⟩, ⟨1, 5, 3⟩, ⟨2, 5, 7⟩]⟩ : DRRSim.Flow).add_packet ⟨3, 5, 3⟩).packets
        = [⟨0, 5, 1⟩, ⟨1, 5, 3⟩, ⟨3, 5, 3⟩, ⟨2, 5, 7⟩] ∧
    DRRSim.histFor 0 ((⟨1, [⟨[]⟩], [1], [1], ⟨1, 1, [(0, 0)]⟩⟩ :
        DRRSim.DRRScheduler).output_link.history)
      = DRRSim.indicesOf (([((DRRSim.Flow.new.add_packet ⟨0, 1, 0⟩), 1)].getD 0
          (⟨[]⟩, 0)).1) ∧
    Sched.ofNames (Sched.namesOf (([((⟨1, [(⟨9, 1⟩, 0)]⟩ : Sched.FixedLengthFlow), 1)].getD 0
          (⟨0, []⟩, 0)).1.queue))
        ((⟨1, [1], [0], [⟨1, []⟩], ⟨0, 1, [], [⟨9, 1⟩], 0⟩⟩ :
          Sched.WRRScheduler).output_port.out_queue)
      = ([((⟨1, [(⟨9, 1⟩, 0)]⟩ : Sched.FixedLengthFlow), 1)].getD 0 (⟨0, []⟩, 0)).1.queue ∧
    Sched.ofNames (Sched.namesOf (([((⟨[(⟨5, 1⟩, 0), (⟨6, 1⟩, 0)]⟩ :
            Sched.VariableLengthFlow), (1 : ℚ))].getD 0 (⟨[]⟩, 0)).1.queue))
        ((⟨2, [(1 : ℚ)], 0 + 1, [⟨[]⟩], ⟨0, 1, [], [⟨5, 1⟩, ⟨6, 1⟩], 0⟩⟩ :
          Sched.WFQScheduler).output_port.out_queue)
      = ([((⟨[(⟨5, 1⟩, 0), (⟨6, 1⟩, 0)]⟩ :
            Sched.VariableLengthFlow), (1 : ℚ))].getD 0 (⟨[]⟩, 0)).1.queue := by
  refine ⟨?_, ?_, ?_, ?_⟩
  · have h := sched_per_flow_fifo.2.1 (⟨[⟨0, 5, 1⟩, ⟨1, 5, 3⟩, ⟨2, 5, 7⟩]⟩ : DRRSim.Flow)
      ⟨3, 5, 3⟩ (by decide)
    rw [h]
    decide
  · exact sched_per_flow_fifo.2.2.2.2.1 1 [((DRRSim.Flow.new.add_packet ⟨0, 1, 0⟩), 1)] 5
      _ (by decide) 0 (by decide)
  · exact sched_per_flow_fifo.2.2.2.2.2.1 1
      [((⟨1, [(⟨9, 1⟩, 0)]⟩ : Sched.FixedLengthFlow), 1)] 5 _ (by decide) (by decide)
      0 (by decide)
  · exact sched_per_flow_fifo.2.2.2.2.2.2 1 [((⟨[(⟨5, 1⟩, 0), (⟨6, 1⟩, 0)]⟩ :
        Sched.VariableLengthFlow), (1 : ℚ))] 4 coinsF 0
      ((⟨2, [(1 : ℚ)], 0 + 1, [⟨[]⟩], ⟨0, 1, [], [⟨5, 1⟩, ⟨6, 1⟩], 0⟩⟩ :
        Sched.WFQScheduler), 0) (by decide) rfl 0 (by decide)
